import Mathlib

/-!
Verification of the Event Parsing and Timeline Layout Engine.

Shallow embedding of the TypeScript sources `src/parser.ts` (Parser:
extractTitleFromMarkdown, parseDate, parseEvents) and `src/renderer.ts`
(Renderer: renderTimeline phase A sorting, addTodayMarker,
renderDurationBar, renderEvent gates).

Strings are modelled as `List Char` (JS strings are sequences of UTF-16
units; all inputs of interest here are plain text where the two views
coincide).  JS `Date` objects are modelled as their millisecond value
(`getTime`) as an `Int`; the host timezone is modelled as UTC, so
`new Date(y, m, d, ...)` (local) and the ISO parse (UTC) share one civil
calendar arithmetic.  Regular expressions from the source are embedded as
explicit matching functions, including the relevant backtracking
behaviour.
-/

/-- JS `\s` / `String.prototype.trim` whitespace, restricted to the ASCII
whitespace characters (TAB, LF, VT, FF, CR, SPACE). -/
def jsIsWs (c : Char) : Bool :=
  c = ' ' || c = '\t' || c = '\n' || c = '\r' || c = '\x0b' || c = '\x0c'

/-- JS `String.prototype.trim`: drop leading and trailing whitespace. -/
def jsTrim (l : List Char) : List Char :=
  ((l.dropWhile jsIsWs).reverse.dropWhile jsIsWs).reverse

/-- JS `String.prototype.split('\n')`. -/
def splitNL : List Char → List (List Char)
  | [] => [[]]
  | c :: rest =>
    if c = '\n' then [] :: splitNL rest
    else
      match splitNL rest with
      | [] => [[c]]
      | l :: ls => (c :: l) :: ls

/-- JS `Array.prototype.join('\n')` on a list of lines. -/
def joinNL : List (List Char) → List Char
  | [] => []
  | [l] => l
  | l :: ls => l ++ '\n' :: joinNL ls

/-- JS `String.prototype.replace(/\r\n/g, '\n')`. -/
def replaceCRLF : List Char → List Char
  | [] => []
  | '\r' :: '\n' :: rest => '\n' :: replaceCRLF rest
  | c :: rest => c :: replaceCRLF rest

/-- JS `String.prototype.indexOf`: index of the first occurrence of
`pat` in `s`, or `-1` if there is none (the empty pattern matches at 0). -/
def jsIndexOf (s pat : List Char) : Int :=
  match s with
  | [] => if pat = [] then 0 else -1
  | _ :: rest =>
    if pat.isPrefixOf s then 0
    else if jsIndexOf rest pat = -1 then -1 else jsIndexOf rest pat + 1

/-- JS `String.prototype.substring(a, b)` for `0 ≤ a ≤ b` (the uses in
scope never swap or clamp). -/
def jsExtract (s : List Char) (a b : Int) : List Char :=
  ((s.drop a.toNat).take (b - a).toNat)

/-- Lower-casing as done by JS `toLowerCase` on the characters that occur
in the date grammar (ASCII letters and the German letters; `ß` is fixed). -/
def jsLower (c : Char) : Char :=
  if 'A' ≤ c ∧ c ≤ 'Z' then Char.ofNat (c.toNat + 32)
  else if c = 'Ä' then 'ä'
  else if c = 'Ö' then 'ö'
  else if c = 'Ü' then 'ü'
  else c

/-- Upper-casing of a single character as done by JS `toUpperCase` on the
letters of the month grammar. -/
def jsUpper (c : Char) : Char :=
  if 'a' ≤ c ∧ c ≤ 'z' then Char.ofNat (c.toNat - 32)
  else if c = 'ä' then 'Ä'
  else if c = 'ö' then 'Ö'
  else if c = 'ü' then 'Ü'
  else c

def isDigit (c : Char) : Bool := '0' ≤ c ∧ c ≤ '9'

def digitVal (c : Char) : Nat := c.toNat - '0'.toNat

/-- Value of a digit string, as JS `parseInt` on an all-digit string. -/
def digitsVal (l : List Char) : Nat := l.foldl (fun a c => a * 10 + digitVal c) 0

/-- JS `\w` word characters. -/
def isWordChar (c : Char) : Bool :=
  ('a' ≤ c ∧ c ≤ 'z') || ('A' ≤ c ∧ c ≤ 'Z') || isDigit c || c = '_'

/-! ### The JS `Date` model

A `Date` is its millisecond value since the epoch (`getTime`), an `Int`.
The host timezone is modelled as UTC.  Civil-calendar conversion uses the
standard days-from-civil / civil-from-days integer algorithms, which agree
with ECMAScript `MakeDay`/`MakeTime` arithmetic (month and day values out
of range roll over). -/

def msPerDay : Int := 86400000

/-- Days from the epoch of the first day of civil month `m ∈ [1,12]` of
year `y`. -/
def daysFromCivil (y m : Int) : Int :=
  let y' := if m ≤ 2 then y - 1 else y
  let era := y'.fdiv 400
  let yoe := y' - era * 400
  let mp := (m + 9).emod 12
  let doy := (153 * mp + 2).fdiv 5
  let doe := yoe * 365 + yoe.fdiv 4 - yoe.fdiv 100 + doy
  era * 146097 + doe - 719468

/-- Civil date `(year, month ∈ [1,12], day ∈ [1,31])` of epoch day `z`. -/
def civilFromDays (z : Int) : Int × Int × Int :=
  let z' := z + 719468
  let era := z'.fdiv 146097
  let doe := z' - era * 146097
  let yoe := (doe - doe.fdiv 1460 + doe.fdiv 36524 - doe.fdiv 146096).fdiv 365
  let y := yoe + era * 400
  let doy := doe - (365 * yoe + yoe.fdiv 4 - yoe.fdiv 100)
  let mp := (5 * doy + 2).fdiv 153
  let d := doy - (153 * mp + 2).fdiv 5 + 1
  let m := mp + (if mp < 10 then 3 else -9)
  (if m ≤ 2 then y + 1 else y, m, d)

/-- JS `Date.prototype.getFullYear` (timezone modelled as UTC). -/
def getFullYear (t : Int) : Int := (civilFromDays (t.fdiv msPerDay)).1

/-- JS `Date.prototype.getMonth` (0-based month index). -/
def getMonth (t : Int) : Int := (civilFromDays (t.fdiv msPerDay)).2.1 - 1

/-- JS `Date.prototype.getDate` (day of month). -/
def getDate (t : Int) : Int := (civilFromDays (t.fdiv msPerDay)).2.2

/-- JS `Date.prototype.getHours` (timezone modelled as UTC). -/
def getHours (t : Int) : Int := (t.emod msPerDay).fdiv 3600000

/-- JS `Date.prototype.getMinutes`. -/
def getMinutes (t : Int) : Int := (t.emod 3600000).fdiv 60000

/-- JS `new Date(year, month0, day, h, mi, s)` (local time, modelled as
UTC): years 0..99 map to 1900..1999, the 0-based month rolls over into the
year, and out-of-range day/time components are plain offsets
(ECMAScript `MakeDay`/`MakeTime`). -/
def mkDateLocal (year month0 day h mi s : Int) : Int :=
  let y := if 0 ≤ year ∧ year ≤ 99 then year + 1900 else year
  let ym := y + month0.fdiv 12
  let mn := month0.emod 12 + 1
  (daysFromCivil ym mn + (day - 1)) * msPerDay + h * 3600000 + mi * 60000 + s * 1000

def isLeap (y : Int) : Bool := y.emod 4 = 0 ∧ (y.emod 100 ≠ 0 ∨ y.emod 400 = 0)

def daysInMonth (y m : Int) : Int :=
  if m = 2 then (if isLeap y then 29 else 28)
  else if m = 4 ∨ m = 6 ∨ m = 9 ∨ m = 11 then 30
  else 31

/-- Modelled from the spec: the host `new Date(string)` generic calendar
parse (step 3 of the date grammar), described in the spec as "ISO-like
`YYYY-MM-DD[ HH:MM[:SS]]` and other locale-neutral forms".  The host
implementation is not part of the repository; this model accepts exactly
the ISO-like forms named by the spec (date, optionally followed by a space
or `T` and a valid time) and rejects everything else, in particular the
`D.M.YYYY` forms.  Returns the millisecond value, or `none` for an
invalid date. -/
def jsDateParse (s : List Char) : Option Int :=
  match s with
  | y1 :: y2 :: y3 :: y4 :: '-' :: m1 :: m2 :: '-' :: d1 :: d2 :: rest =>
    if isDigit y1 ∧ isDigit y2 ∧ isDigit y3 ∧ isDigit y4 ∧
       isDigit m1 ∧ isDigit m2 ∧ isDigit d1 ∧ isDigit d2 then
      let y : Int := digitsVal [y1, y2, y3, y4]
      let m : Int := digitsVal [m1, m2]
      let d : Int := digitsVal [d1, d2]
      if 1 ≤ m ∧ m ≤ 12 ∧ 1 ≤ d ∧ d ≤ daysInMonth y m then
        let base := daysFromCivil y m * msPerDay + (d - 1) * msPerDay
        match rest with
        | [] => some base
        | sep :: h1 :: h2 :: ':' :: n1 :: n2 :: rest2 =>
          if (sep = ' ' ∨ sep = 'T') ∧ isDigit h1 ∧ isDigit h2 ∧ isDigit n1 ∧ isDigit n2 then
            let hh : Int := digitsVal [h1, h2]
            let nn : Int := digitsVal [n1, n2]
            if hh ≤ 23 ∧ nn ≤ 59 then
              match rest2 with
              | [] => some (base + hh * 3600000 + nn * 60000)
              | ':' :: s1 :: s2 :: [] =>
                if isDigit s1 ∧ isDigit s2 ∧ (digitsVal [s1, s2] : Int) ≤ 59 then
                  some (base + hh * 3600000 + nn * 60000 + (digitsVal [s1, s2] : Int) * 1000)
                else none
              | _ => none
            else none
          else none
        | _ => none
      else none
    else none
  | _ => none

/-! ### DateResolver — `Parser.parseDate`

Embedding of the regex-driven grammar: quarter, German month name,
generic calendar parse (`jsDateParse`, modelled from the spec), and the
`D.M.YYYY` fallback. -/

def isNameLetter (c : Char) : Bool :=
  ('a' ≤ c ∧ c ≤ 'z') || ('A' ≤ c ∧ c ≤ 'Z') ||
  c = 'ä' || c = 'ö' || c = 'ü' || c = 'Ä' || c = 'Ö' || c = 'Ü' || c = 'ß'

/-- `MONTH_NAME_TO_INDEX` from `config.ts` (keys are lower-case). -/
def monthNameToIndex (s : List Char) : Option Nat :=
  if s = "januar".toList ∨ s = "jan".toList then some 0
  else if s = "februar".toList ∨ s = "feb".toList then some 1
  else if s = "märz".toList ∨ s = "mär".toList ∨ s = "mar".toList then some 2
  else if s = "april".toList ∨ s = "apr".toList then some 3
  else if s = "mai".toList ∨ s = "may".toList then some 4
  else if s = "juni".toList ∨ s = "jun".toList then some 5
  else if s = "juli".toList ∨ s = "jul".toList then some 6
  else if s = "august".toList ∨ s = "aug".toList then some 7
  else if s = "september".toList ∨ s = "sep".toList then some 8
  else if s = "oktober".toList ∨ s = "okt".toList ∨ s = "oct".toList then some 9
  else if s = "november".toList ∨ s = "nov".toList then some 10
  else if s = "dezember".toList ∨ s = "dez".toList ∨ s = "dec".toList then some 11
  else none

/-- Regex `^(Q([1-4]))\s*(\d{4})$` (case-insensitive): quarter and year. -/
def quarterMatch1 (s : List Char) : Option (Nat × Nat) :=
  match s with
  | q :: d :: rest =>
    if jsLower q = 'q' ∧ '1' ≤ d ∧ d ≤ '4' then
      let yr := rest.drop (rest.takeWhile jsIsWs).length
      if yr.length = 4 ∧ yr.all isDigit then some (digitVal d, digitsVal yr) else none
    else none
  | _ => none

/-- Regex `^(\d{4})\s*(Q([1-4]))$` (case-insensitive). -/
def quarterMatch2 (s : List Char) : Option (Nat × Nat) :=
  if (s.take 4).length = 4 ∧ (s.take 4).all isDigit then
    match (s.drop 4).drop ((s.drop 4).takeWhile jsIsWs).length with
    | [q, d] =>
      if jsLower q = 'q' ∧ '1' ≤ d ∧ d ≤ '4' then some (digitVal d, digitsVal (s.take 4))
      else none
    | _ => none
  else none

/-- The quarter step: first regex, then the swapped alternative. -/
def quarterMatch (s : List Char) : Option (Nat × Nat) :=
  (quarterMatch1 s).orElse fun _ => quarterMatch2 s

/-- Regex `^([a-zA-ZäöüÄÖÜß]+)\s*(\d{4})$`: month name and year. -/
def monthNameMatch1 (s : List Char) : Option (List Char × Nat) :=
  let nm := s.takeWhile isNameLetter
  if nm = [] then none
  else
    let yr := (s.drop nm.length).drop ((s.drop nm.length).takeWhile jsIsWs).length
    if yr.length = 4 ∧ yr.all isDigit then some (nm, digitsVal yr) else none

/-- Regex `^(\d{4})\s*([a-zA-ZäöüÄÖÜß]+)$`, rearranged to (name, year). -/
def monthNameMatch2 (s : List Char) : Option (List Char × Nat) :=
  if (s.take 4).length = 4 ∧ (s.take 4).all isDigit then
    let nm := (s.drop 4).drop ((s.drop 4).takeWhile jsIsWs).length
    if nm ≠ [] ∧ nm.all isNameLetter then some (nm, digitsVal (s.take 4)) else none
  else none

def monthNameMatch (s : List Char) : Option (List Char × Nat) :=
  (monthNameMatch1 s).orElse fun _ => monthNameMatch2 s

/-- Greedy `\d{1,2}` followed by a literal `.` (two digits preferred;
no cross-level backtracking is possible because a digit is never `.`). -/
def digits12Dot (s : List Char) : Option (Nat × List Char) :=
  match s with
  | a :: b :: c :: rest =>
    if isDigit a ∧ isDigit b ∧ c = '.' then some (10 * digitVal a + digitVal b, rest)
    else if isDigit a ∧ b = '.' then some (digitVal a, c :: rest)
    else none
  | [a, b] => if isDigit a ∧ b = '.' then some (digitVal a, []) else none
  | _ => none

/-- Regex `^(\d{1,2})\.(\d{1,2})\.(\d{4})` (not anchored at the end):
day, month, year. -/
def germanMatch (s : List Char) : Option (Nat × Nat × Nat) :=
  match digits12Dot s with
  | none => none
  | some (d, rest) =>
    match digits12Dot rest with
    | none => none
    | some (m, rest2) =>
      if (rest2.take 4).length = 4 ∧ (rest2.take 4).all isDigit then
        some (d, m, digitsVal (rest2.take 4))
      else none

/-- Greedy `\d{1,2}` followed by a literal `:`. -/
def digits12Colon (s : List Char) : Option (Nat × List Char) :=
  match s with
  | a :: b :: c :: rest =>
    if isDigit a ∧ isDigit b ∧ c = ':' then some (10 * digitVal a + digitVal b, rest)
    else if isDigit a ∧ b = ':' then some (digitVal a, c :: rest)
    else none
  | [a, b] => if isDigit a ∧ b = ':' then some (digitVal a, []) else none
  | _ => none

/-- Greedy `\d{1,2}` with no following constraint. -/
def digits12Any (s : List Char) : Option (Nat × List Char) :=
  match s with
  | a :: b :: rest =>
    if isDigit a ∧ isDigit b then some (10 * digitVal a + digitVal b, rest)
    else if isDigit a then some (digitVal a, b :: rest)
    else none
  | [a] => if isDigit a then some (digitVal a, []) else none
  | [] => none

/-- Regex `(\d{1,2}):(\d{1,2})(:(\d{1,2}))?` matched at the start:
(hours, minutes, seconds), seconds defaulting to 0. -/
def timeAtHead (s : List Char) : Option (Nat × Nat × Nat) :=
  match digits12Colon s with
  | none => none
  | some (hh, rest) =>
    match digits12Any rest with
    | none => none
    | some (mm, rest2) =>
      match rest2 with
      | ':' :: r3 =>
        match digits12Any r3 with
        | some (ss, _) => some (hh, mm, ss)
        | none => some (hh, mm, 0)
      | _ => some (hh, mm, 0)

/-- The unanchored time regex: leftmost match anywhere in the string. -/
def findTimeMatch : List Char → Option (Nat × Nat × Nat)
  | [] => none
  | c :: rest => (timeAtHead (c :: rest)).orElse fun _ => findTimeMatch rest

structure ParsedDate where
  date : Option Int
  displayString : Option (List Char)
  hasTime : Bool
deriving DecidableEq

def failedParse : ParsedDate := ⟨none, none, false⟩

/-- Steps 3 and 4 of `Parser.parseDate`: the generic calendar parse
(`new Date(string)`, modelled by `jsDateParse`), and on failure the
`D.M.YYYY` fallback with its unanchored time regex. -/
def parseDateLate (dateString : List Char) : ParsedDate :=
  match jsDateParse dateString with
  | some t => ⟨some t, none, dateString.contains ':'⟩
  | none =>
    match germanMatch dateString with
    | some (d, m, y) =>
      match findTimeMatch dateString with
      | some (hh, mm, ss) =>
        ⟨some (mkDateLocal y ((m : Int) - 1) d hh mm ss), none, true⟩
      | none => ⟨some (mkDateLocal y ((m : Int) - 1) d 0 0 0), none, false⟩
    | none => failedParse

/-- `Parser.parseDate`: quarter, then month name (falling through to the
later steps when the name is not in the month table), then the generic
parse, then the `D.M.YYYY` fallback. -/
def parseDate (dateString : List Char) : ParsedDate :=
  match quarterMatch dateString with
  | some (q, year) =>
    ⟨some (mkDateLocal year (((q : Int) - 1) * 3) 1 0 0 0),
     some ('Q' :: Nat.toDigits 10 q ++ ' ' :: Nat.toDigits 10 year),
     false⟩
  | none =>
    match monthNameMatch dateString with
    | some (nm, year) =>
      match monthNameToIndex (nm.map jsLower) with
      | some idx =>
        ⟨some (mkDateLocal year idx 1 0 0 0),
         some (jsUpper nm.headI :: nm.tail ++ ' ' :: Nat.toDigits 10 year),
         false⟩
      | none => parseDateLate dateString
    | none => parseDateLate dateString

/-! ### Tokenizer — block splitting in `Parser.parseEvents`

The separator regex is `(\r\n---\r\n|\n---\n|\r---\r)`, applied
repeatedly with `exec`/`lastIndex` (leftmost, non-overlapping).  At any
given position at most one of the three alternatives can match, so the
alternation order is immaterial. -/

/-- Length of the separator matching at the head of `l`, if any. -/
def matchSep (l : List Char) : Option Nat :=
  if l.take 7 = ['\r', '\n', '-', '-', '-', '\r', '\n'] then some 7
  else if l.take 5 = ['\n', '-', '-', '-', '\n'] then some 5
  else if l.take 5 = ['\r', '-', '-', '-', '\r'] then some 5
  else none

/-- Leftmost separator occurrence: its index and length. -/
def findSep : List Char → Option (Nat × Nat)
  | [] => none
  | c :: rest =>
    match matchSep (c :: rest) with
    | some n => some (0, n)
    | none => (findSep rest).map fun p => (p.1 + 1, p.2)

/-- An event block: its text and its `start`/`end` offsets (`end` is a
Lean keyword, so the field is named `stop`). -/
structure EventBlock where
  text : List Char
  start : Int
  stop : Int
deriving DecidableEq

/-- The `while ((match = separatorRegex.exec(bodyText)) !== null)` loop of
`Parser.parseEvents` plus the final trailing segment: `pos` is the JS
`lastIndex` into the original body, so for the trailing segment
`bodyOffset + pos + l.length` is `bodyOffset + bodyText.length`.
Whitespace-only segments (`!eventStr.trim()`) are discarded. -/
def splitBlocksGo (fuel : Nat) (bodyOffset : Int) (l : List Char) (pos : Nat) :
    List EventBlock :=
  match fuel with
  | 0 => []
  | fuel + 1 =>
    match findSep l with
    | none =>
      if jsTrim l = [] then []
      else [⟨l, bodyOffset + pos, bodyOffset + pos + l.length⟩]
    | some (i, n) =>
      (if jsTrim (l.take i) = [] then []
       else [⟨l.take i, bodyOffset + pos, bodyOffset + (pos + i)⟩]) ++
      splitBlocksGo fuel bodyOffset (l.drop (i + n)) (pos + i + n)

/-- The fuel `bodyText.length + 1` always suffices: every separator match
consumes at least one character. -/
def splitBlocks (bodyText : List Char) (bodyOffset : Int) : List EventBlock :=
  splitBlocksGo (bodyText.length + 1) bodyOffset bodyText 0

/-- The segments the tokenizer's scan produces, without offsets or the
whitespace filter: used to state what the split removes from the body. -/
def sepSegmentsGo (fuel : Nat) (l : List Char) : List (List Char) :=
  match fuel with
  | 0 => []
  | fuel + 1 =>
    match findSep l with
    | none => [l]
    | some (i, n) => l.take i :: sepSegmentsGo fuel (l.drop (i + n))

def sepSegments (l : List Char) : List (List Char) :=
  sepSegmentsGo (l.length + 1) l

/-- "The body minus the separators and minus whitespace-only blocks":
concatenation of the non-whitespace segments between separator
occurrences, in original order. -/
def retainedText (l : List Char) : List Char :=
  ((sepSegments l).filter fun s => decide (jsTrim s ≠ [])).flatten

/-! ### EventExtractor — the per-block loop of `Parser.parseEvents`

Metadata line regexes (`/^date:\s*(.+)/i` etc.) are embedded with the
greedy-plus-backtracking behaviour of `\s*(.+)` (the `.` of a JS regex
without the `s` flag does not match line terminators). -/

/-- JS regex `.` (no `s` flag): any character except a line terminator. -/
def dotOK (c : Char) : Bool := ¬(c = '\n' ∨ c = '\r')

/-- Try to start the `(.+)` capture at offset `k` of `tail`. -/
def tryDotAt (tail : List Char) (k : Nat) : Option (List Char) :=
  match tail.drop k with
  | [] => none
  | c :: rest => if dotOK c then some (c :: rest.takeWhile dotOK) else none

/-- Greedy backtracking of `\s*`: try the largest offset first. -/
def tryDotDown (tail : List Char) : Nat → Option (List Char)
  | 0 => tryDotAt tail 0
  | k + 1 => (tryDotAt tail (k + 1)).orElse fun _ => tryDotDown tail k

/-- The `\s*(.+)` part of a metadata regex, applied after the key. -/
def wsDotPlus (tail : List Char) : Option (List Char) :=
  tryDotDown tail (tail.takeWhile jsIsWs).length

/-- Regex `^date:\s*(.+)/i`: the captured group. -/
def dateLineMatch (line : List Char) : Option (List Char) :=
  if (line.take 5).map jsLower = "date:".toList then wsDotPlus (line.drop 5) else none

/-- Regex `^end_date:\s*(.+)/i`. -/
def endDateLineMatch (line : List Char) : Option (List Char) :=
  if (line.take 9).map jsLower = "end_date:".toList then wsDotPlus (line.drop 9) else none

/-- Regex `^class:\s*(\w+)/i` (no backtracking can help: `\s` and `\w`
are disjoint). -/
def classLineMatch (line : List Char) : Option (List Char) :=
  if (line.take 6).map jsLower = "class:".toList then
    match (line.drop 6).drop ((line.drop 6).takeWhile jsIsWs).length with
    | c :: rest => if isWordChar c then some (c :: rest.takeWhile isWordChar) else none
    | [] => none
  else none

/-- Regex `^(group|lane):\s*(.+)/i`: the second captured group. -/
def groupLineMatch (line : List Char) : Option (List Char) :=
  if (line.take 6).map jsLower = "group:".toList then wsDotPlus (line.drop 6)
  else if (line.take 5).map jsLower = "lane:".toList then wsDotPlus (line.drop 5)
  else none

/-- `VALID_EVENT_CLASSES` from `config.ts`. -/
def validEventClass (s : List Char) : Bool :=
  s = "critical".toList || s = "warning".toList || s = "success".toList ||
  s = "meeting".toList || s = "work".toList

structure RawEventData where
  date : Int
  endDate : Option Int
  content : List Char
  explicitTimeProvided : Bool
  displayDateString : Option (List Char)
  eventClass : Option (List Char)
  group : List Char
  startPos : Int
  endPos : Int
deriving DecidableEq

/-- The mutable locals of the per-block loop in `Parser.parseEvents`. -/
structure ExtState where
  dateStringFromInput : Option (List Char)
  endDateStringFromInput : Option (List Char)
  explicitTimeInInput : Bool
  displayDateString : Option (List Char)
  parsedDateObject : Option ParsedDate
  parsedEndDateObject : Option ParsedDate
  eventClass : Option (List Char)
  eventGroup : List Char
  contentLines : List (List Char)
deriving DecidableEq

def initExtState : ExtState :=
  ⟨none, none, false, none, none, none, none, "Default".toList, []⟩

/-- One iteration of `for (const line of lines)`: the `dateMatch` /
`endDateMatch` / `classMatch` / `groupMatch` if-chain (the four regexes
are mutually exclusive, each starting with a distinct literal key). -/
def stepLine (st : ExtState) (line : List Char) : ExtState :=
  match dateLineMatch line with
  | some m1 =>
    let v := jsTrim m1
    if v = [] then { st with dateStringFromInput := none }
    else
      let pd := parseDate v
      if pd.date.isSome then
        { st with dateStringFromInput := some v, parsedDateObject := some pd,
                  explicitTimeInInput := pd.hasTime, displayDateString := pd.displayString }
      else { st with dateStringFromInput := some v, parsedDateObject := some pd }
  | none =>
  match endDateLineMatch line with
  | some m1 =>
    let v := jsTrim m1
    if v = [] then { st with endDateStringFromInput := none }
    else { st with endDateStringFromInput := some v,
                   parsedEndDateObject := some (parseDate v) }
  | none =>
  match classLineMatch line with
  | some m1 =>
    let f := m1.map jsLower
    if validEventClass f then { st with eventClass := some ("is-".toList ++ f) } else st
  | none =>
  match groupLineMatch line with
  | some m2 =>
    let v := jsTrim m2
    { st with eventGroup := if v = [] then "Default".toList else v }
  | none => { st with contentLines := st.contentLines ++ [line] }

/-- The error notice prepended on date failure, distinguishing a missing
`date:` field from a malformed value. -/
def errorMsgFor : Option (List Char) → List Char
  | some s => "**Fehler:** Ungültiges Datum: `".toList ++ s ++ ['`']
  | none => "**Fehler:** Kein Datum gefunden.".toList

def nlnl : List Char := ['\n', '\n']

/-- Building the `RawEventData` record at the end of the per-block loop:
sentinel `new Date(0)` and the error notice when the date is missing or
failed to parse. -/
def finalizeEvent (st : ExtState) (s e : Int) : RawEventData :=
  let content0 := jsTrim (joinNL st.contentLines)
  let base : RawEventData :=
    { date := 0, endDate := st.parsedEndDateObject.bind (·.date), content := content0,
      explicitTimeProvided := st.explicitTimeInInput,
      displayDateString := st.displayDateString, eventClass := st.eventClass,
      group := st.eventGroup, startPos := s, endPos := e }
  match st.parsedDateObject with
  | some pd =>
    match pd.date with
    | some d => { base with date := d }
    | none => { base with content := errorMsgFor st.dateStringFromInput ++ nlnl ++ content0 }
  | none => { base with content := errorMsgFor st.dateStringFromInput ++ nlnl ++ content0 }

/-- `const lines = eventStr.trim().split('\n')`. -/
def eventLines (text : List Char) : List (List Char) := splitNL (jsTrim text)

def extractEvent (b : EventBlock) : RawEventData :=
  finalizeEvent ((eventLines b.text).foldl stepLine initExtState) b.start b.stop

/-- `Parser.parseEvents`. -/
def parseEvents (bodyText : List Char) (bodyOffset : Int) : List RawEventData :=
  (splitBlocks bodyText bodyOffset).map extractEvent

/-! ### DocumentParser — `Parser.extractTitleFromMarkdown` and the
renderer's body-offset computation. -/

/-- The `\s*(.+)\s*$` tail of the title regexes combined with the
`m[1]?.trim()` guard of the caller: the match succeeds with a non-empty
trimmed capture iff the trimmed remainder is non-empty and free of line
terminators, and the resulting title is that trimmed remainder. -/
def titleValueMatch (tail : List Char) : Option (List Char) :=
  let mid := jsTrim tail
  if mid ≠ [] ∧ mid.all dotOK then some mid else none

/-- Regex `^\s*title:\s*(.+)\s*$/i` plus the trim guard. -/
def titleLineMatch (line : List Char) : Option (List Char) :=
  let afterWs := line.dropWhile jsIsWs
  if (afterWs.take 6).map jsLower = "title:".toList then titleValueMatch (afterWs.drop 6)
  else none

/-- Regex `^\s*#{1,6}\s+(.+)\s*$` plus the trim guard. -/
def atxLineMatch (line : List Char) : Option (List Char) :=
  let afterWs := line.dropWhile jsIsWs
  let hashes := afterWs.takeWhile fun c => c = '#'
  if 1 ≤ hashes.length ∧ hashes.length ≤ 6 then
    match afterWs.drop hashes.length with
    | c :: rest => if jsIsWs c then titleValueMatch rest else none
    | [] => none
  else none

structure TitleExtraction where
  title : Option (List Char)
  body : List Char
deriving DecidableEq

/-- `Parser.extractTitleFromMarkdown`: normalize CRLF to LF, skip blank
lines, consume the first non-blank line when it is a `title:` line or an
ATX heading, and join the remaining lines. -/
def extractTitleFromMarkdown (text : List Char) : TitleExtraction :=
  if text = [] then ⟨none, []⟩
  else
    let lines := splitNL (replaceCRLF text)
    let i := (lines.takeWhile fun l => jsTrim l = []).length
    match lines.drop i with
    | [] => ⟨none, joinNL lines⟩
    | line :: _ =>
      match titleLineMatch line with
      | some t => ⟨some t, joinNL (lines.take i ++ lines.drop (i + 1))⟩
      | none =>
        match atxLineMatch line with
        | some t => ⟨some t, joinNL (lines.take i ++ lines.drop (i + 1))⟩
        | none => ⟨none, joinNL lines⟩

/-- `Renderer.renderTimeline` up to parsing: title extraction,
`bodyOffset = fullMarkdown.indexOf(bodyText)`, then `Parser.parseEvents`. -/
def pipelineEvents (fullMarkdown : List Char) : List RawEventData :=
  let parsedTop := extractTitleFromMarkdown fullMarkdown
  let bodyText := parsedTop.body
  let bodyOffset := jsIndexOf fullMarkdown bodyText
  parseEvents bodyText bodyOffset

/-! ### LayoutEngine phase A — sorting and lanes (`Renderer.renderTimeline`)

JS `Array.prototype.sort` is a stable sort whose output is ordered by
`comparator(a, b) ≤ 0`; it is embedded as `List.mergeSort` (stable) with
that boolean relation. -/

def dateLE (a b : RawEventData) : Bool := a.date ≤ b.date

/-- `events.sort((a, b) => a.date.getTime() - b.date.getTime())`. -/
def linearSort (events : List RawEventData) : List RawEventData :=
  events.mergeSort dateLE

/-- `[...new Set(events.map(e => e.group))]`: first-seen-order dedup. -/
def firstSeenDedup (l : List (List Char)) : List (List Char) :=
  l.foldl (fun acc g => if g ∈ acc then acc else acc ++ [g]) []

def uniqueGroups (events : List RawEventData) : List (List Char) :=
  firstSeenDedup (events.map (·.group))

/-- JS `Array.prototype.indexOf` (−1 when absent). -/
def jsArrIndexOf (l : List (List Char)) (g : List Char) : Int :=
  match l with
  | [] => -1
  | a :: rest =>
    if a = g then 0
    else
      match jsArrIndexOf rest g with
      | -1 => -1
      | i => i + 1

/-- The swimlane comparator: date, then lane index among `groups`. -/
def swimCmp (groups : List (List Char)) (a b : RawEventData) : Int :=
  if a.date = b.date then jsArrIndexOf groups a.group - jsArrIndexOf groups b.group
  else a.date - b.date

def swimLE (groups : List (List Char)) (a b : RawEventData) : Bool :=
  swimCmp groups a b ≤ 0

/-- The lane-mode re-sort: applied to the date-sorted list, with the
distinct-lane list computed from that date-sorted list. -/
def swimSort (events : List RawEventData) : List RawEventData :=
  (linearSort events).mergeSort (swimLE (uniqueGroups (linearSort events)))

/-- `showSwimlanes && uniqueGroups.length > 1` (the unique groups are
computed from the date-sorted events). -/
def isSwimlaneMode (events : List RawEventData) (showSwimlanes : Bool) : Bool :=
  showSwimlanes && decide ((uniqueGroups (linearSort events)).length > 1)

/-! ### LayoutEngine phase B — today marker and duration connectors. -/

/-- `setHours(0, 0, 0, 0)`: normalize an instant to its civil midnight
(timezone modelled as UTC). -/
def normMidnight (t : Int) : Int := t.fdiv msPerDay * msPerDay

/-- `events.filter(e => e.date.getTime() !== new Date(0).getTime())`. -/
def validTodayEvents (events : List RawEventData) : List RawEventData :=
  events.filter fun e => decide (e.date ≠ 0)

/-- The `for` loop of `Renderer.addTodayMarker`: position of the first
event whose normalized date is `≥` the normalized current date; the
`insertIndex === -1` fallback makes that the list length when no event
qualifies. -/
def findInsertIdx (now : Int) : List RawEventData → Nat
  | [] => 0
  | e :: rest =>
    if normMidnight e.date ≥ normMidnight now then 0 else findInsertIdx now rest + 1

/-- `Renderer.addTodayMarker`, reduced to the computed insertion index:
`none` when there is no valid event (the marker is not inserted at all). -/
def addTodayMarkerIndex (events : List RawEventData) (now : Int) : Option Nat :=
  let v := validTodayEvents events
  if v = [] then none else some (findInsertIdx now v)

/-- The body of the search loop of `Renderer.renderDurationBar`, walking
the suffix of the event list while carrying the absolute index. -/
def findDurationEndGo (ed : Int) : List RawEventData → Nat → Option Nat
  | [], _ => none
  | e :: rest, j => if ed ≤ e.date then some j else findDurationEndGo ed rest (j + 1)

/-- The search loop of `Renderer.renderDurationBar`: first index
`j ≥ start` with `allEvents[j].date >= endDate`. -/
def findDurationEnd (allEvents : List RawEventData) (ed : Int) (j : Nat) : Option Nat :=
  findDurationEndGo ed (allEvents.drop j) j

/-- Bottom edge of the last rendered item (`offsetTop + offsetHeight`);
`-1` when nothing was rendered, as in the source's initial value. -/
def lastBottom (items : List (Int × Int)) : Int :=
  match items.getLast? with
  | some it => it.1 + it.2
  | none => -1

/-- `Renderer.renderDurationBar`: `items` are the rendered
`.timeline-item` geometries `(offsetTop, offsetHeight)` indexed like
`allEvents`; returns `(bar height, end marker top)` when the connector is
drawn, `none` when it is suppressed. -/
def renderDurationBar (allEvents : List RawEventData) (items : List (Int × Int))
    (startTop : Int) (sortedIndex : Nat) (ed : Int) : Option (Int × Int) :=
  let endPositionTop :=
    match findDurationEnd allEvents ed (sortedIndex + 1) with
    | some j =>
      match items.get? j with
      | some it => it.1
      | none => lastBottom items
    | none => lastBottom items
  if endPositionTop > startTop then
    if endPositionTop - startTop > 20 then
      some (endPositionTop - startTop - 2, endPositionTop - startTop)
    else none
  else none

/-- The gate in `Renderer.renderEvent`: the duration bar is only rendered
when `event.endDate && event.date < event.endDate`. -/
def renderEventDurationBar (e : RawEventData) (allEvents : List RawEventData)
    (items : List (Int × Int)) (startTop : Int) (sortedIndex : Nat) : Option (Int × Int) :=
  match e.endDate with
  | some ed =>
    if e.date < ed then renderDurationBar allEvents items startTop sortedIndex ed else none
  | none => none

/-- The duration badge gate in `Renderer.renderEvent`:
`event.endDate && event.date.getTime() !== 0`. -/
def showDurationBadge (e : RawEventData) : Bool :=
  e.endDate.isSome && decide (e.date ≠ 0)

/-- Equality of extractor states except for the end-date locals, whose
parsed value on the right side is absent or failed. -/
def SameButEnd (s1 s2 : ExtState) : Prop :=
  s1.dateStringFromInput = s2.dateStringFromInput ∧
  s1.explicitTimeInInput = s2.explicitTimeInInput ∧
  s1.displayDateString = s2.displayDateString ∧
  s1.parsedDateObject = s2.parsedDateObject ∧
  s1.eventClass = s2.eventClass ∧
  s1.eventGroup = s2.eventGroup ∧
  s1.contentLines = s2.contentLines ∧
  s1.parsedEndDateObject = none ∧
  (s2.parsedEndDateObject = none ∨
    ∃ pd, s2.parsedEndDateObject = some pd ∧ pd.date = none)

/-- The lexicographic (date, original parse index) order used to state
stability of the linear sort. -/
def tieLE (a b : Nat × RawEventData) : Bool :=
  if a.2.date = b.2.date then a.1 ≤ b.1 else a.2.date ≤ b.2.date

/-! ### The tokenizer against the spec's separator notion

`specSplitBlocks` renders the spec's words for an LF body: split at every
line consisting solely of `---`, discard whitespace-only blocks, keep the
trailing segment. -/

def dashLine : List Char := ['-', '-', '-']

def splitOnDash : List (List Char) → List (List (List Char))
  | [] => [[]]
  | l :: rest =>
    if l = dashLine then [] :: splitOnDash rest
    else
      match splitOnDash rest with
      | [] => [[l]]
      | g :: gs => (l :: g) :: gs

/-- The spec's tokenizer on an LF body: blocks are the line groups
between `---` lines, joined back, whitespace-only blocks discarded. -/
def specSplitBlocks (body : List Char) : List (List Char) :=
  ((splitOnDash (splitNL body)).map joinNL).filter fun t => decide (jsTrim t ≠ [])

/-- A line as produced by splitting: free of line terminators. -/
def goodLine (l : List Char) : Prop := ∀ c ∈ l, c ≠ '\n' ∧ c ≠ '\r'

def isMetadataLine (ln : List Char) : Bool :=
  (dateLineMatch ln).isSome || (endDateLineMatch ln).isSome ||
  (classLineMatch ln).isSome || (groupLineMatch ln).isSome

/-- From the spec's words: "the body minus separators and metadata lines
in original order" — remove the `---` lines and the metadata lines, keep
everything else in order. -/
def specBodyMinusSepsAndMeta (body : List Char) : List Char :=
  joinNL ((splitNL body).filter fun ln => !(ln == dashLine || isMetadataLine ln))

theorem matchSep_pos {l : List Char} {n : Nat} (h : matchSep l = some n) : 0 < n := by
  unfold matchSep at h
  split_ifs at h <;> simp_all <;> omega

theorem findSep_ne_nil {l : List Char} {p : Nat × Nat} (h : findSep l = some p) :
    l ≠ [] := by
  intro he
  rw [he] at h
  simp [findSep] at h

theorem findSep_snd_pos {l : List Char} {i n : Nat} (h : findSep l = some (i, n)) :
    0 < n := by
  induction l generalizing i with
  | nil => simp [findSep] at h
  | cons c rest ih =>
    simp only [findSep] at h
    cases hm : matchSep (c :: rest) with
    | some m =>
      rw [hm] at h
      simp only [Option.some.injEq, Prod.mk.injEq] at h
      exact h.2 ▸ matchSep_pos hm
    | none =>
      rw [hm] at h
      rw [Option.map_eq_some'] at h
      obtain ⟨⟨i', n'⟩, hfs, heq⟩ := h
      simp only [Prod.mk.injEq] at heq
      exact ih (heq.2 ▸ hfs)

/-! ### Supporting lemmas -/

theorem foldl_firstSeenIns_mem (l : List (List Char)) (acc : List (List Char)) (x : List Char) :
    x ∈ l.foldl (fun acc g => if g ∈ acc then acc else acc ++ [g]) acc ↔ x ∈ acc ∨ x ∈ l := by
  induction l generalizing acc with
  | nil => simp
  | cons a l ih =>
    simp only [List.foldl_cons, ih, List.mem_cons]
    by_cases ha : a ∈ acc <;> simp [ha] <;> aesop

theorem firstSeenDedup_mem (l : List (List Char)) (x : List Char) :
    x ∈ firstSeenDedup l ↔ x ∈ l := by
  unfold firstSeenDedup
  rw [foldl_firstSeenIns_mem]
  simp

theorem foldl_firstSeenIns_nodup (l : List (List Char)) (acc : List (List Char))
    (h : acc.Nodup) :
    (l.foldl (fun acc g => if g ∈ acc then acc else acc ++ [g]) acc).Nodup := by
  induction l generalizing acc with
  | nil => simpa
  | cons a l ih =>
    simp only [List.foldl_cons]
    by_cases ha : a ∈ acc
    · simpa [ha] using ih acc h
    · simp only [ha, if_false]
      exact ih _ (by simp [List.nodup_append, h, ha])

theorem firstSeenDedup_nodup (l : List (List Char)) : (firstSeenDedup l).Nodup :=
  foldl_firstSeenIns_nodup l [] List.nodup_nil

theorem firstSeenDedup_two_le (l : List (List Char)) :
    2 ≤ (firstSeenDedup l).length ↔ ∃ x ∈ l, ∃ y ∈ l, x ≠ y := by
  constructor
  · intro h
    match hd : firstSeenDedup l with
    | [] => rw [hd] at h; simp at h
    | [a] => rw [hd] at h; simp at h
    | a :: b :: rest =>
      have hnd := firstSeenDedup_nodup l
      rw [hd] at hnd
      have hab : a ≠ b := by
        intro he
        exact (List.nodup_cons.mp hnd).1 (he ▸ List.mem_cons_self b rest)
      have ha : a ∈ l := (firstSeenDedup_mem l a).mp (by rw [hd]; simp)
      have hb : b ∈ l := (firstSeenDedup_mem l b).mp (by rw [hd]; simp)
      exact ⟨a, ha, b, hb, hab⟩
  · rintro ⟨x, hx, y, hy, hxy⟩
    have hx' : x ∈ firstSeenDedup l := (firstSeenDedup_mem l x).mpr hx
    have hy' : y ∈ firstSeenDedup l := (firstSeenDedup_mem l y).mpr hy
    match hd : firstSeenDedup l with
    | [] => rw [hd] at hx'; simp at hx'
    | [a] =>
      rw [hd] at hx' hy'
      simp at hx' hy'
      exact absurd (hx'.trans hy'.symm) hxy
    | a :: b :: rest => simp

theorem mem_linearSort {e : RawEventData} {events : List RawEventData} :
    e ∈ linearSort events ↔ e ∈ events := by
  unfold linearSort
  exact List.mem_mergeSort

/-- C9: Lane (swimlane) mode activates if and only if the caller requests
it and at least two distinct lanes exist among the parsed events; a
document whose events all share one lane is always rendered linearly even
when the caller requests lane mode. -/
theorem C9_lane_mode_iff_requested_and_two_lanes
    (events : List RawEventData) (sw : Bool) :
    (isSwimlaneMode events sw = true ↔
      sw = true ∧ ∃ e₁ ∈ events, ∃ e₂ ∈ events, e₁.group ≠ e₂.group) ∧
    (∀ g, (∀ e ∈ events, e.group = g) → isSwimlaneMode events sw = false) := by
  have hiff : isSwimlaneMode events sw = true ↔
      sw = true ∧ ∃ e₁ ∈ events, ∃ e₂ ∈ events, e₁.group ≠ e₂.group := by
    unfold isSwimlaneMode uniqueGroups
    simp only [Bool.and_eq_true, decide_eq_true_eq, gt_iff_lt]
    constructor
    · rintro ⟨hsw, hlen⟩
      obtain ⟨x, hx, y, hy, hxy⟩ :=
        (firstSeenDedup_two_le ((linearSort events).map (fun x => x.group))).mp (by omega)
      obtain ⟨e₁, he₁, hge₁⟩ := List.mem_map.mp hx
      obtain ⟨e₂, he₂, hge₂⟩ := List.mem_map.mp hy
      exact ⟨hsw, e₁, mem_linearSort.mp he₁, e₂, mem_linearSort.mp he₂, by
        rw [hge₁, hge₂]; exact hxy⟩
    · rintro ⟨hsw, e₁, he₁, e₂, he₂, hne⟩
      refine ⟨hsw, ?_⟩
      have h2 : 2 ≤ (firstSeenDedup ((linearSort events).map (fun e => e.group))).length :=
        (firstSeenDedup_two_le ((linearSort events).map (fun e => e.group))).mpr
          ⟨e₁.group, List.mem_map_of_mem _ (mem_linearSort.mpr he₁),
           e₂.group, List.mem_map_of_mem _ (mem_linearSort.mpr he₂), hne⟩
      omega
  refine ⟨hiff, fun g hall => ?_⟩
  cases h : isSwimlaneMode events sw with
  | false => rfl
  | true =>
    obtain ⟨-, e₁, he₁, e₂, he₂, hne⟩ := hiff.mp h
    exact absurd ((hall e₁ he₁).trans (hall e₂ he₂).symm) hne

/-- C9 witness: two lanes plus the request activate lane mode; a single
shared lane never does, even when requested. -/
theorem C9_witness :
    isSwimlaneMode
      [⟨0, none, [], false, none, none, ['A'], 0, 1⟩,
       ⟨0, none, [], false, none, none, ['B'], 1, 2⟩] true = true ∧
    isSwimlaneMode
      [⟨0, none, [], false, none, none, ['A'], 0, 1⟩,
       ⟨0, none, [], false, none, none, ['A'], 1, 2⟩] true = false := by
  constructor
  · exact (C9_lane_mode_iff_requested_and_two_lanes _ true).1.mpr
      ⟨rfl, ⟨0, none, [], false, none, none, ['A'], 0, 1⟩, by simp,
       ⟨0, none, [], false, none, none, ['B'], 1, 2⟩, by simp, by decide⟩
  · exact (C9_lane_mode_iff_requested_and_two_lanes _ true).2 ['A'] (by decide)

theorem findInsertIdx_le (now : Int) (l : List RawEventData) :
    findInsertIdx now l ≤ l.length := by
  induction l with
  | nil => simp [findInsertIdx]
  | cons e rest ih =>
    rw [findInsertIdx]
    split
    · simp
    · simpa using ih

theorem findInsertIdx_take (now : Int) (l : List RawEventData) :
    ∀ e ∈ l.take (findInsertIdx now l), normMidnight e.date < normMidnight now := by
  induction l with
  | nil => simp [findInsertIdx]
  | cons e rest ih =>
    rw [findInsertIdx]
    split
    · simp
    · rename_i hcond
      intro x hx
      rw [List.take_succ_cons] at hx
      rcases List.mem_cons.mp hx with h | h
      · subst h; omega
      · exact ih x h

theorem findInsertIdx_head (now : Int) (l : List RawEventData) :
    ∀ e, (l.drop (findInsertIdx now l)).head? = some e →
      normMidnight now ≤ normMidnight e.date := by
  induction l with
  | nil => simp [findInsertIdx]
  | cons e rest ih =>
    rw [findInsertIdx]
    split
    · rename_i hcond
      intro x hx
      simp only [List.drop_zero, List.head?_cons, Option.some.injEq] at hx
      subst hx
      omega
    · simpa using ih

theorem findInsertIdx_all_lt (now : Int) (l : List RawEventData)
    (h : ∀ e ∈ l, normMidnight e.date < normMidnight now) :
    findInsertIdx now l = l.length := by
  induction l with
  | nil => simp [findInsertIdx]
  | cons e rest ih =>
    rw [findInsertIdx]
    have he := h e (List.mem_cons_self e rest)
    rw [if_neg (by omega)]
    simp [ih fun x hx => h x (List.mem_cons_of_mem e hx)]

theorem normMidnight_add_day (t : Int) :
    normMidnight (t + msPerDay) = normMidnight t + msPerDay := by
  unfold normMidnight msPerDay
  rw [Int.fdiv_eq_ediv _ (by norm_num), Int.fdiv_eq_ediv _ (by norm_num)]
  have h1 : t + 86400000 = t + 1 * 86400000 := by ring
  rw [h1, Int.add_mul_ediv_right t 1 (by norm_num)]
  ring

theorem normMidnight_sub_day (t : Int) :
    normMidnight (t - msPerDay) = normMidnight t - msPerDay := by
  unfold normMidnight msPerDay
  rw [Int.fdiv_eq_ediv _ (by norm_num), Int.fdiv_eq_ediv _ (by norm_num)]
  have h1 : t - 86400000 = t + (-1) * 86400000 := by ring
  rw [h1, Int.add_mul_ediv_right t (-1) (by norm_num)]
  ring

/-- C2: the today-marker insertion index restricts to events with a
non-sentinel date, normalizes both "today" and each event date to
midnight, and is the position of the first event whose normalized date is
`≥` today, or the end of the list if none qualifies; `[yesterday,
tomorrow]` gives 1, all-past gives end of list, all-future gives 0. -/
theorem C2_today_marker_insertion_index :
    (∀ (events : List RawEventData) (now : Int),
      validTodayEvents events ≠ [] →
      ∃ i, addTodayMarkerIndex events now = some i ∧
        i ≤ (validTodayEvents events).length ∧
        (∀ e ∈ (validTodayEvents events).take i,
          normMidnight e.date < normMidnight now) ∧
        (∀ e, ((validTodayEvents events).drop i).head? = some e →
          normMidnight now ≤ normMidnight e.date)) ∧
    (∀ (now : Int) (e₁ e₂ : RawEventData),
      e₁.date = now - msPerDay → e₂.date = now + msPerDay →
      e₁.date ≠ 0 → e₂.date ≠ 0 →
      addTodayMarkerIndex [e₁, e₂] now = some 1) ∧
    (∀ (events : List RawEventData) (now : Int),
      validTodayEvents events ≠ [] →
      (∀ e ∈ events, e.date ≠ 0 → normMidnight e.date < normMidnight now) →
      addTodayMarkerIndex events now = some (validTodayEvents events).length) ∧
    (∀ (events : List RawEventData) (now : Int),
      validTodayEvents events ≠ [] →
      (∀ e ∈ events, normMidnight now ≤ normMidnight e.date) →
      addTodayMarkerIndex events now = some 0) := by
  refine ⟨?_, ?_, ?_, ?_⟩
  · intro events now hne
    refine ⟨findInsertIdx now (validTodayEvents events), ?_, findInsertIdx_le now _,
      findInsertIdx_take now _, findInsertIdx_head now _⟩
    unfold addTodayMarkerIndex
    rw [if_neg hne]
  · intro now e₁ e₂ h₁ h₂ hz₁ hz₂
    have hv : validTodayEvents [e₁, e₂] = [e₁, e₂] := by
      unfold validTodayEvents
      simp [List.filter_cons, hz₁, hz₂]
    unfold addTodayMarkerIndex
    rw [hv, if_neg (by simp)]
    rw [findInsertIdx, if_neg (by rw [h₁, normMidnight_sub_day]; unfold msPerDay; omega)]
    rw [findInsertIdx, if_pos (by rw [h₂, normMidnight_add_day]; unfold msPerDay; omega)]
  · intro events now hne hall
    unfold addTodayMarkerIndex
    rw [if_neg hne]
    congr 1
    refine findInsertIdx_all_lt now _ fun e he => ?_
    have := List.mem_filter.mp he
    exact hall e this.1 (by simpa using this.2)
  · intro events now hne hall
    unfold addTodayMarkerIndex
    rw [if_neg hne]
    match hv : validTodayEvents events with
    | [] => exact absurd hv hne
    | e :: rest =>
      have he : e ∈ events := by
        have : e ∈ validTodayEvents events := by rw [hv]; simp
        exact (List.mem_filter.mp this).1
      rw [findInsertIdx, if_pos (hall e he)]

/-- C2 witness: yesterday/tomorrow around a concrete "today" give index 1. -/
theorem C2_witness :
    addTodayMarkerIndex
      [⟨86400000, none, [], false, none, none, [], 0, 1⟩,
       ⟨259200000, none, [], false, none, none, [], 1, 2⟩] 172800000 = some 1 :=
  C2_today_marker_insertion_index.2.1 172800000 _ _ (by decide) (by decide)
    (by decide) (by decide)

theorem get?_drop_add (l : List RawEventData) :
    ∀ (j i : Nat), (l.drop j).get? i = l.get? (j + i) := by
  induction l with
  | nil => intro j i; simp
  | cons a t ih =>
    intro j i
    cases j with
    | zero => simp
    | succ j =>
      rw [List.drop_succ_cons, ih j i]
      simp [Nat.succ_add]

theorem findDurationEndGo_sound (ed : Int) :
    ∀ (l : List RawEventData) (j k : Nat), findDurationEndGo ed l j = some k →
      j ≤ k ∧ k - j < l.length ∧
      (∀ e, l.get? (k - j) = some e → ed ≤ e.date) ∧
      (∀ m e, j ≤ m → m < k → l.get? (m - j) = some e → e.date < ed) := by
  intro l
  induction l with
  | nil => intro j k h; simp [findDurationEndGo] at h
  | cons a rest ih =>
    intro j k h
    rw [findDurationEndGo] at h
    split at h
    · rename_i hge
      injection h with h
      subst h
      refine ⟨le_refl j, by simp, ?_, ?_⟩
      · intro e he
        simp only [Nat.sub_self, List.get?] at he
        injection he with he
        exact he ▸ hge
      · intro m e h1 h2 _
        omega
    · rename_i hlt
      have hih := ih (j + 1) k h
      refine ⟨by omega, by simp; omega, ?_, ?_⟩
      · intro e he
        have hkj : k - j = (k - (j + 1)) + 1 := by omega
        rw [hkj, List.get?_cons_succ] at he
        exact hih.2.2.1 e he
      · intro m e h1 h2 hme
        rcases Nat.eq_or_lt_of_le h1 with heq | hlt2
        · subst heq
          simp only [Nat.sub_self, List.get?] at hme
          injection hme with hme
          rw [← hme]
          omega
        · have hmj : m - j = (m - (j + 1)) + 1 := by omega
          rw [hmj, List.get?_cons_succ] at hme
          exact hih.2.2.2 m e (by omega) h2 hme

theorem findDurationEnd_sound (allEvents : List RawEventData) (ed : Int) (j k : Nat)
    (h : findDurationEnd allEvents ed j = some k) :
    j ≤ k ∧ k < allEvents.length ∧
    (∀ e, allEvents.get? k = some e → ed ≤ e.date) ∧
    (∀ m e, j ≤ m → m < k → allEvents.get? m = some e → e.date < ed) := by
  unfold findDurationEnd at h
  have hs := findDurationEndGo_sound ed (allEvents.drop j) j k h
  have hlen : (allEvents.drop j).length = allEvents.length - j := by simp
  refine ⟨hs.1, by omega, ?_, ?_⟩
  · intro e he
    refine hs.2.2.1 e ?_
    rw [get?_drop_add allEvents j (k - j)]
    have : j + (k - j) = k := by omega
    rw [this]
    exact he
  · intro m e h1 h2 hme
    refine hs.2.2.2 m e h1 h2 ?_
    rw [get?_drop_add allEvents j (m - j)]
    have : j + (m - j) = m := by omega
    rw [this]
    exact hme

theorem findDurationEndGo_none (ed : Int) :
    ∀ (l : List RawEventData) (j : Nat), findDurationEndGo ed l j = none →
      ∀ m e, j ≤ m → l.get? (m - j) = some e → e.date < ed := by
  intro l
  induction l with
  | nil => intro j h m e h1 hme; simp at hme
  | cons a rest ih =>
    intro j h m e h1 hme
    rw [findDurationEndGo] at h
    split at h
    · simp at h
    · rename_i hlt
      rcases Nat.eq_or_lt_of_le h1 with heq | hlt2
      · subst heq
        simp only [Nat.sub_self, List.get?] at hme
        injection hme with hme
        rw [← hme]
        omega
      · have hmj : m - j = (m - (j + 1)) + 1 := by omega
        rw [hmj, List.get?_cons_succ] at hme
        exact ih (j + 1) h m e (by omega) hme

theorem findDurationEnd_none (allEvents : List RawEventData) (ed : Int) (j : Nat)
    (h : findDurationEnd allEvents ed j = none) :
    ∀ m e, j ≤ m → allEvents.get? m = some e → e.date < ed := by
  intro m e h1 hme
  unfold findDurationEnd at h
  refine findDurationEndGo_none ed (allEvents.drop j) j h m e h1 ?_
  rw [get?_drop_add allEvents j (m - j)]
  have : j + (m - j) = m := by omega
  rw [this]
  exact hme

/-- C3: for every event with `endDate > date` the duration connector is
found by searching forward in sorted order for the first later event with
`date >= endDate`; if found the connector spans from this event's offset
to that event's offset, otherwise to the bottom edge of the last rendered
item; connectors not exceeding the 20px threshold are suppressed; events
without `endDate > date` get no duration connector. -/
theorem C3_duration_connector :
    (∀ (allEvents : List RawEventData) (items : List (Int × Int)) (e : RawEventData)
       (i : Nat) (ed : Int) (startTop : Int),
      allEvents.get? i = some e → e.endDate = some ed → e.date < ed →
      ((∀ j, findDurationEnd allEvents ed (i + 1) = some j →
          i < j ∧ j < allEvents.length ∧
          (∀ ej, allEvents.get? j = some ej → ed ≤ ej.date) ∧
          (∀ m em, i < m → m < j → allEvents.get? m = some em → em.date < ed)) ∧
       (findDurationEnd allEvents ed (i + 1) = none →
          ∀ m em, i < m → allEvents.get? m = some em → em.date < ed)) ∧
      (∀ j tj hj, findDurationEnd allEvents ed (i + 1) = some j →
        items.get? j = some (tj, hj) →
        renderEventDurationBar e allEvents items startTop i =
          if 20 < tj - startTop then some (tj - startTop - 2, tj - startTop) else none) ∧
      (findDurationEnd allEvents ed (i + 1) = none →
        renderEventDurationBar e allEvents items startTop i =
          if 20 < lastBottom items - startTop then
            some (lastBottom items - startTop - 2, lastBottom items - startTop)
          else none)) ∧
    (∀ (e : RawEventData) (allEvents : List RawEventData) (items : List (Int × Int))
       (startTop : Int) (i : Nat),
      (∀ ed, e.endDate = some ed → ¬ e.date < ed) →
      renderEventDurationBar e allEvents items startTop i = none) := by
  constructor
  · intro allEvents items e i ed startTop hei hed hlt
    refine ⟨⟨?_, ?_⟩, ?_, ?_⟩
    · intro j hj
      have hs := findDurationEnd_sound allEvents ed (i + 1) j hj
      exact ⟨by omega, hs.2.1, hs.2.2.1, fun m em h1 h2 hm =>
        hs.2.2.2 m em (by omega) h2 hm⟩
    · intro hn m em h1 hm
      exact findDurationEnd_none allEvents ed (i + 1) hn m em (by omega) hm
    · intro j tj hj hfind hitem
      unfold renderEventDurationBar
      rw [hed]
      dsimp only
      rw [if_pos hlt]
      unfold renderDurationBar
      rw [hfind]
      dsimp only
      rw [hitem]
      dsimp only
      split_ifs <;> first | rfl | omega
    · intro hfind
      unfold renderEventDurationBar
      rw [hed]
      dsimp only
      rw [if_pos hlt]
      unfold renderDurationBar
      rw [hfind]
      dsimp only
      split_ifs <;> first | rfl | omega
  · intro e allEvents items startTop i hno
    unfold renderEventDurationBar
    cases hed : e.endDate with
    | none => rfl
    | some ed =>
      dsimp only
      rw [if_neg (hno ed hed)]

/-- C3 witness: a two-event timeline where the second event's date
reaches the first event's end date; the connector spans offset 0 to
offset 100 and is drawn (100 > 20). -/
theorem C3_witness :
    renderEventDurationBar
      ⟨0, some 259200000, [], false, none, none, [], 0, 1⟩
      [⟨0, some 259200000, [], false, none, none, [], 0, 1⟩,
       ⟨259200000, none, [], false, none, none, [], 1, 2⟩]
      [(0, 50), (100, 50)] 0 0 = some (98, 100) := by
  have h := (C3_duration_connector.1
      [⟨0, some 259200000, [], false, none, none, [], 0, 1⟩,
       ⟨259200000, none, [], false, none, none, [], 1, 2⟩]
      [(0, 50), (100, 50)]
      ⟨0, some 259200000, [], false, none, none, [], 0, 1⟩
      0 259200000 0 (by decide) rfl (by decide)).2.1
      1 100 50 (by decide) (by decide)
  rw [h]
  decide

/-! ### Fold-state lemmas for the extractor -/

theorem stepLine_nondate (st : ExtState) (x : List Char) (hx : dateLineMatch x = none) :
    (stepLine st x).parsedDateObject = st.parsedDateObject ∧
    (stepLine st x).dateStringFromInput = st.dateStringFromInput := by
  unfold stepLine
  rw [hx]
  dsimp only
  split
  · split_ifs <;> exact ⟨rfl, rfl⟩
  · split
    · split_ifs <;> exact ⟨rfl, rfl⟩
    · split
      · exact ⟨rfl, rfl⟩
      · exact ⟨rfl, rfl⟩

theorem foldl_stepLine_nondate (post : List (List Char))
    (h : ∀ x ∈ post, dateLineMatch x = none) :
    ∀ st, (post.foldl stepLine st).parsedDateObject = st.parsedDateObject ∧
      (post.foldl stepLine st).dateStringFromInput = st.dateStringFromInput := by
  induction post with
  | nil => intro st; exact ⟨rfl, rfl⟩
  | cons a rest ih =>
    intro st
    rw [List.foldl_cons]
    have ha := stepLine_nondate st a (h a (List.mem_cons_self a rest))
    have hr := ih (fun x hx => h x (List.mem_cons_of_mem a hx)) (stepLine st a)
    exact ⟨hr.1.trans ha.1, hr.2.trans ha.2⟩

theorem stepLine_date (st : ExtState) (l m1 : List Char)
    (hl : dateLineMatch l = some m1) (hv : jsTrim m1 ≠ []) :
    (stepLine st l).parsedDateObject = some (parseDate (jsTrim m1)) ∧
    (stepLine st l).dateStringFromInput = some (jsTrim m1) := by
  unfold stepLine
  rw [hl]
  dsimp only
  rw [if_neg hv]
  split_ifs <;> exact ⟨rfl, rfl⟩

/-- The fold state on a line list `pre ++ l :: post` where `l` is the only
`date:` line and its value is non-empty. -/
theorem foldl_stepLine_single_date (pre post : List (List Char)) (l m1 : List Char)
    (hpre : ∀ x ∈ pre, dateLineMatch x = none)
    (hpost : ∀ x ∈ post, dateLineMatch x = none)
    (hl : dateLineMatch l = some m1) (hv : jsTrim m1 ≠ []) (st : ExtState) :
    ((pre ++ l :: post).foldl stepLine st).parsedDateObject =
      some (parseDate (jsTrim m1)) ∧
    ((pre ++ l :: post).foldl stepLine st).dateStringFromInput = some (jsTrim m1) := by
  rw [List.foldl_append, List.foldl_cons]
  have hstep := stepLine_date (pre.foldl stepLine st) l m1 hl hv
  have hpost' := foldl_stepLine_nondate post hpost (stepLine (pre.foldl stepLine st) l)
  exact ⟨hpost'.1.trans hstep.1, hpost'.2.trans hstep.2⟩

theorem stepLine_sameButEnd (x : List Char) (hx : endDateLineMatch x = none)
    (s1 s2 : ExtState) (hR : SameButEnd s1 s2) :
    SameButEnd (stepLine s1 x) (stepLine s2 x) := by
  obtain ⟨h1, h2, h3, h4, h5, h6, h7, h8, h9⟩ := hR
  unfold stepLine
  rw [hx]
  cases hdm : dateLineMatch x with
  | some m1 =>
    dsimp only
    split_ifs
    · exact ⟨rfl, h2, h3, h4, h5, h6, h7, h8, h9⟩
    · exact ⟨rfl, rfl, rfl, rfl, h5, h6, h7, h8, h9⟩
    · exact ⟨rfl, h2, h3, rfl, h5, h6, h7, h8, h9⟩
  | none =>
    dsimp only
    cases hcm : classLineMatch x with
    | some m1 =>
      dsimp only
      split_ifs
      · exact ⟨h1, h2, h3, h4, rfl, h6, h7, h8, h9⟩
      · exact ⟨h1, h2, h3, h4, h5, h6, h7, h8, h9⟩
    | none =>
      dsimp only
      cases hgm : groupLineMatch x with
      | some m2 => exact ⟨h1, h2, h3, h4, h5, rfl, h7, h8, h9⟩
      | none => exact ⟨h1, h2, h3, h4, h5, h6, by rw [h7], h8, h9⟩

theorem stepLine_endDate_fail (x m1 : List Char) (hx : endDateLineMatch x = some m1)
    (hfail : jsTrim m1 = [] ∨ (parseDate (jsTrim m1)).date = none)
    (s1 s2 : ExtState) (hR : SameButEnd s1 s2) :
    SameButEnd s1 (stepLine s2 x) := by
  obtain ⟨h1, h2, h3, h4, h5, h6, h7, h8, h9⟩ := hR
  have hdm : dateLineMatch x = none := by
    cases hd : dateLineMatch x with
    | none => rfl
    | some m =>
      exfalso
      unfold dateLineMatch at hd
      unfold endDateLineMatch at hx
      split_ifs at hd hx with hd5 hd9
      have hde : "date:".toList = ['d', 'a', 't', 'e', ':'] := rfl
      have hen : "end_date:".toList = ['e', 'n', 'd', '_', 'd', 'a', 't', 'e', ':'] := rfl
      rw [hde] at hd5
      rw [hen] at hd9
      cases x with
      | nil => simp at hd5
      | cons c t =>
        rw [List.take_succ_cons, List.map_cons] at hd5 hd9
        have e5 : jsLower c = 'd' := by injection hd5
        have e9 : jsLower c = 'e' := by injection hd9
        rw [e5] at e9
        exact absurd e9 (by decide)
  unfold stepLine
  rw [hdm, hx]
  dsimp only
  split_ifs with hv
  · exact ⟨h1, h2, h3, h4, h5, h6, h7, h8, h9⟩
  · refine ⟨h1, h2, h3, h4, h5, h6, h7, h8, Or.inr ⟨parseDate (jsTrim m1), rfl, ?_⟩⟩
    rcases hfail with hf | hf
    · exact absurd hf hv
    · exact hf

theorem foldl_sameButEnd (lines : List (List Char))
    (h : ∀ x ∈ lines, ∀ m1, endDateLineMatch x = some m1 →
      jsTrim m1 = [] ∨ (parseDate (jsTrim m1)).date = none) :
    ∀ s1 s2, SameButEnd s1 s2 →
      SameButEnd
        ((lines.filter fun x => (endDateLineMatch x).isNone).foldl stepLine s1)
        (lines.foldl stepLine s2) := by
  induction lines with
  | nil => intro s1 s2 hR; exact hR
  | cons x rest ih =>
    intro s1 s2 hR
    cases hx : endDateLineMatch x with
    | some m1 =>
      rw [List.filter_cons_of_neg (by simp [hx]), List.foldl_cons]
      exact ih (fun y hy => h y (List.mem_cons_of_mem x hy)) s1 (stepLine s2 x)
        (stepLine_endDate_fail x m1 hx (h x (List.mem_cons_self x rest) m1 hx) s1 s2 hR)
    | none =>
      rw [List.filter_cons_of_pos (by simp [hx]), List.foldl_cons, List.foldl_cons]
      exact ih (fun y hy => h y (List.mem_cons_of_mem x hy)) (stepLine s1 x)
        (stepLine s2 x) (stepLine_sameButEnd x hx s1 s2 hR)

theorem finalizeEvent_sameButEnd (s1 s2 : ExtState) (hR : SameButEnd s1 s2)
    (s e : Int) :
    finalizeEvent s2 s e = finalizeEvent s1 s e ∧
    (finalizeEvent s2 s e).endDate = none := by
  obtain ⟨h1, h2, h3, h4, h5, h6, h7, h8, h9⟩ := hR
  have hbind : s2.parsedEndDateObject.bind (fun pd => pd.date) = none := by
    rcases h9 with h9 | ⟨pd, h9, hpd⟩
    · rw [h9]; rfl
    · rw [h9]
      simp [hpd]
  constructor
  · unfold finalizeEvent
    rw [h1, h2, h3, h4, h5, h6, h7, h8, hbind]
    rfl
  · unfold finalizeEvent
    rw [hbind]
    split
    · split <;> rfl
    · rfl

theorem finalizeEvent_date_fail (st : ExtState)
    (hpd : st.parsedDateObject = none ∨
      ∃ pd, st.parsedDateObject = some pd ∧ pd.date = none) (s e : Int) :
    (finalizeEvent st s e).date = 0 ∧
    (finalizeEvent st s e).content =
      errorMsgFor st.dateStringFromInput ++ nlnl ++ jsTrim (joinNL st.contentLines) := by
  unfold finalizeEvent
  rcases hpd with h | ⟨pd, h, hd⟩ <;> rw [h]
  · exact ⟨rfl, rfl⟩
  · dsimp only
    rw [hd]
    exact ⟨rfl, rfl⟩

theorem finalizeEvent_date_ok (st : ExtState) (pd : ParsedDate) (d : Int)
    (h : st.parsedDateObject = some pd) (hd : pd.date = some d) (s e : Int) :
    (finalizeEvent st s e).date = d ∧
    (finalizeEvent st s e).content = jsTrim (joinNL st.contentLines) := by
  unfold finalizeEvent
  rw [h]
  dsimp only
  rw [hd]
  exact ⟨rfl, rfl⟩

/-- C5: for every block, a missing `date:` line or a DateResolver failure
on its value yields the sentinel epoch-zero date and a human-readable
error notice prepended to the content, with distinct messages for the
missing-field and malformed-value cases; a failing `end_date:` value is
silently ignored: `endDate` stays null and the event is exactly what the
block without its `end_date:` lines would produce. -/
theorem C5_date_error_handling :
    (∀ (b : EventBlock),
      (∀ x ∈ eventLines b.text, dateLineMatch x = none) →
      (extractEvent b).date = 0 ∧
      ∃ rest, (extractEvent b).content =
        "**Fehler:** Kein Datum gefunden.".toList ++ '\n' :: '\n' :: rest) ∧
    (∀ (b : EventBlock) (pre post : List (List Char)) (l m1 : List Char),
      eventLines b.text = pre ++ l :: post →
      (∀ x ∈ pre, dateLineMatch x = none) →
      (∀ x ∈ post, dateLineMatch x = none) →
      dateLineMatch l = some m1 → jsTrim m1 ≠ [] →
      (parseDate (jsTrim m1)).date = none →
      (extractEvent b).date = 0 ∧
      ∃ rest, (extractEvent b).content =
        "**Fehler:** Ungültiges Datum: `".toList ++
          (jsTrim m1 ++ '`' :: '\n' :: '\n' :: rest)) ∧
    (∀ (b : EventBlock),
      (∀ x ∈ eventLines b.text, ∀ m1, endDateLineMatch x = some m1 →
        jsTrim m1 = [] ∨ (parseDate (jsTrim m1)).date = none) →
      (extractEvent b).endDate = none ∧
      extractEvent b =
        finalizeEvent
          (((eventLines b.text).filter fun x => (endDateLineMatch x).isNone).foldl
            stepLine initExtState) b.start b.stop) := by
  refine ⟨?_, ?_, ?_⟩
  · intro b hall
    have hst := foldl_stepLine_nondate (eventLines b.text) hall initExtState
    have hf := finalizeEvent_date_fail ((eventLines b.text).foldl stepLine initExtState)
      (Or.inl hst.1) b.start b.stop
    refine ⟨hf.1, jsTrim (joinNL ((eventLines b.text).foldl stepLine initExtState).contentLines), ?_⟩
    unfold extractEvent
    rw [hf.2, hst.2]
    rfl
  · intro b pre post l m1 hsplit hpre hpost hl hv hfail
    have hst : ((eventLines b.text).foldl stepLine initExtState).parsedDateObject =
        some (parseDate (jsTrim m1)) ∧
        ((eventLines b.text).foldl stepLine initExtState).dateStringFromInput =
        some (jsTrim m1) := by
      rw [hsplit]
      exact foldl_stepLine_single_date pre post l m1 hpre hpost hl hv initExtState
    have hf := finalizeEvent_date_fail ((eventLines b.text).foldl stepLine initExtState)
      (Or.inr ⟨parseDate (jsTrim m1), hst.1, hfail⟩) b.start b.stop
    refine ⟨hf.1, jsTrim (joinNL ((eventLines b.text).foldl stepLine initExtState).contentLines), ?_⟩
    unfold extractEvent
    rw [hf.2, hst.2]
    unfold errorMsgFor nlnl
    simp [List.append_assoc]
  · intro b hall
    have hR : SameButEnd initExtState initExtState :=
      ⟨rfl, rfl, rfl, rfl, rfl, rfl, rfl, rfl, Or.inl rfl⟩
    have hfold := foldl_sameButEnd (eventLines b.text) hall initExtState initExtState hR
    have hfin := finalizeEvent_sameButEnd _ _ hfold b.start b.stop
    exact ⟨hfin.2, hfin.1⟩

/-- C5 witness: the block `"A\nend_date: x"` has no `date:` line and a
malformed `end_date:` value; the event gets the sentinel date, the
missing-date notice, and a null `endDate`. -/
theorem C5_witness :
    (extractEvent ⟨"A\nend_date: x".toList, 0, 13⟩).date = 0 ∧
    (extractEvent ⟨"A\nend_date: x".toList, 0, 13⟩).endDate = none ∧
    ∃ rest, (extractEvent ⟨"A\nend_date: x".toList, 0, 13⟩).content =
      "**Fehler:** Kein Datum gefunden.".toList ++ '\n' :: '\n' :: rest := by
  have hlines : eventLines ("A\nend_date: x".toList) =
      [['A'], "end_date: x".toList] := by decide
  have hnodate : ∀ x ∈ eventLines ("A\nend_date: x".toList), dateLineMatch x = none := by
    rw [hlines]
    decide
  have hend : ∀ x ∈ eventLines ("A\nend_date: x".toList), ∀ m1,
      endDateLineMatch x = some m1 →
      jsTrim m1 = [] ∨ (parseDate (jsTrim m1)).date = none := by
    rw [hlines]
    intro x hx m1 hm
    rcases List.mem_cons.mp hx with rfl | hx
    · rw [show endDateLineMatch ['A'] = none from by decide] at hm
      exact absurd hm (by simp)
    · rcases List.mem_cons.mp hx with rfl | hx
      · rw [show endDateLineMatch ("end_date: x".toList) = some ['x'] from by decide] at hm
        injection hm with hm
        subst hm
        right
        decide
      · simp at hx
  exact ⟨(C5_date_error_handling.1 _ hnodate).1,
    (C5_date_error_handling.2.2 _ hend).1,
    (C5_date_error_handling.1 _ hnodate).2⟩

/-- C10: an event whose `date:` token legitimately resolves to exactly the
epoch-zero instant gets no error notice prepended (its content is exactly
the joined content lines), yet it is excluded from the today-marker
computation and its duration badge is suppressed, because both checks
compare the date against epoch zero. -/
theorem C10_epoch_zero_date_indistinguishable
    (b : EventBlock) (pre post : List (List Char)) (l m1 : List Char)
    (hsplit : eventLines b.text = pre ++ l :: post)
    (hpre : ∀ x ∈ pre, dateLineMatch x = none)
    (hpost : ∀ x ∈ post, dateLineMatch x = none)
    (hl : dateLineMatch l = some m1) (hv : jsTrim m1 ≠ [])
    (hzero : (parseDate (jsTrim m1)).date = some 0) :
    (extractEvent b).date = 0 ∧
    (extractEvent b).content =
      jsTrim (joinNL (((eventLines b.text).foldl stepLine initExtState).contentLines)) ∧
    (∀ events, extractEvent b ∉ validTodayEvents events) ∧
    showDurationBadge (extractEvent b) = false := by
  have hst : ((eventLines b.text).foldl stepLine initExtState).parsedDateObject =
      some (parseDate (jsTrim m1)) ∧
      ((eventLines b.text).foldl stepLine initExtState).dateStringFromInput =
      some (jsTrim m1) := by
    rw [hsplit]
    exact foldl_stepLine_single_date pre post l m1 hpre hpost hl hv initExtState
  have hok := finalizeEvent_date_ok ((eventLines b.text).foldl stepLine initExtState)
    (parseDate (jsTrim m1)) 0 hst.1 hzero b.start b.stop
  have hdate : (extractEvent b).date = 0 := hok.1
  have hcont : (extractEvent b).content =
      jsTrim (joinNL (((eventLines b.text).foldl stepLine initExtState).contentLines)) := hok.2
  refine ⟨hdate, hcont, ?_, ?_⟩
  · intro events hmem
    unfold validTodayEvents at hmem
    have hmf := List.of_mem_filter hmem
    rw [hdate] at hmf
    simp at hmf
  · unfold showDurationBadge
    rw [hdate]
    simp

/-- C10 witness: `date: 1970-01-01` resolves to epoch zero; the event has
no error notice, is dropped by the today-marker filter, and its duration
badge is suppressed despite a valid `end_date:`. -/
theorem C10_witness :
    (extractEvent ⟨"date: 1970-01-01\nend_date: 1970-03-01\nX".toList, 0, 39⟩).date = 0 ∧
    (extractEvent ⟨"date: 1970-01-01\nend_date: 1970-03-01\nX".toList, 0, 39⟩).content = ['X'] ∧
    (∀ events,
      extractEvent ⟨"date: 1970-01-01\nend_date: 1970-03-01\nX".toList, 0, 39⟩ ∉
        validTodayEvents events) ∧
    showDurationBadge
      (extractEvent ⟨"date: 1970-01-01\nend_date: 1970-03-01\nX".toList, 0, 39⟩) = false := by
  have h := C10_epoch_zero_date_indistinguishable
    ⟨"date: 1970-01-01\nend_date: 1970-03-01\nX".toList, 0, 39⟩
    [] ["end_date: 1970-03-01".toList, ['X']]
    ("date: 1970-01-01".toList) ("1970-01-01".toList)
    (by decide) (by decide) (by decide) (by decide) (by decide) (by decide)
  refine ⟨h.1, ?_, h.2.2.1, h.2.2.2⟩
  rw [h.2.1]
  decide

/-- C8: the `D.M.YYYY` fallback runs only when the generic calendar parse
(step 3) fails — when step 3 succeeds (and the quarter and month-name
steps did not fire), its result is returned untouched — and when the
fallback runs, `hasExplicitTime` is true iff the time regex matched;
`resolve("15.01.2025 14:30")` gives day 15, month index 0, year 2025,
`hasExplicitTime = true`. -/
theorem C8_german_fallback_after_generic :
    (∀ (s : List Char) (r : Int), jsDateParse s = some r →
      quarterMatch s = none →
      (∀ nm year, monthNameMatch s = some (nm, year) →
        monthNameToIndex (nm.map jsLower) = none) →
      parseDate s = ⟨some r, none, s.contains ':'⟩) ∧
    (∀ (s : List Char) (d m y : Nat),
      quarterMatch s = none →
      (∀ nm year, monthNameMatch s = some (nm, year) →
        monthNameToIndex (nm.map jsLower) = none) →
      jsDateParse s = none →
      germanMatch s = some (d, m, y) →
      (parseDate s).hasTime = (findTimeMatch s).isSome) ∧
    ((parseDate "15.01.2025 14:30".toList).date.map
        (fun t => (getDate t, getMonth t, getFullYear t)) = some (15, 0, 2025) ∧
     (parseDate "15.01.2025 14:30".toList).hasTime = true) := by
  refine ⟨?_, ?_, by decide, by decide⟩
  · intro s r hjs hq hm
    unfold parseDate
    rw [hq]
    dsimp only
    cases hmn : monthNameMatch s with
    | none =>
      dsimp only
      unfold parseDateLate
      rw [hjs]
    | some p =>
      dsimp only
      rw [hm p.1 p.2 (by rw [hmn])]
      unfold parseDateLate
      rw [hjs]
  · intro s d m y hq hm hjs hg
    unfold parseDate
    rw [hq]
    dsimp only
    have hlate : (parseDateLate s).hasTime = (findTimeMatch s).isSome := by
      unfold parseDateLate
      rw [hjs]
      dsimp only
      rw [hg]
      dsimp only
      cases ht : findTimeMatch s with
      | none => rfl
      | some t => rfl
    cases hmn : monthNameMatch s with
    | none => exact hlate
    | some p =>
      dsimp only
      rw [hm p.1 p.2 (by rw [hmn])]
      exact hlate

/-- C8 witness: `"2025-01-01"` is handled by the generic parse (step 3),
so the fallback never runs and the result is the generic instant with
`hasExplicitTime = false`. -/
theorem C8_witness :
    parseDate "2025-01-01".toList = ⟨some 1735689600000, none, false⟩ := by
  have h := C8_german_fallback_after_generic.1 "2025-01-01".toList 1735689600000
    (by decide) (by decide)
    (by intro nm year hmn
        rw [show monthNameMatch "2025-01-01".toList = none from by decide] at hmn
        exact absurd hmn (by simp))
  rw [h]
  decide

theorem dateLE_trans : ∀ (a b c : RawEventData),
    dateLE a b → dateLE b c → dateLE a c := by
  intro a b c hab hbc
  simp only [dateLE, decide_eq_true_eq] at *
  omega

theorem dateLE_total : ∀ (a b : RawEventData), dateLE a b || dateLE b a := by
  intro a b
  simp only [dateLE]
  by_cases h : a.date ≤ b.date <;> simp [h] <;> omega

theorem tieLE_eq_enumLE : tieLE = List.enumLE dateLE := by
  funext a b
  unfold tieLE List.enumLE dateLE
  by_cases h1 : a.2.date = b.2.date
  · rw [if_pos h1, if_pos (by simp [h1]), if_pos (by simp [h1])]
  · rw [if_neg h1]
    by_cases h2 : a.2.date ≤ b.2.date
    · rw [if_pos (by simp [h2]), if_neg (by simp; omega)]
      simp [h2]
    · rw [if_neg (by simp [h2])]
      simp [h2]

theorem tieLE_trans : ∀ (a b c : Nat × RawEventData),
    tieLE a b → tieLE b c → tieLE a c := by
  intro a b c hab hbc
  unfold tieLE at *
  split_ifs at * <;> simp_all <;> omega

theorem tieLE_total : ∀ (a b : Nat × RawEventData), tieLE a b || tieLE b a := by
  intro a b
  unfold tieLE
  split_ifs <;> simp_all <;> omega

theorem swimLE_trans (groups : List (List Char)) : ∀ (a b c : RawEventData),
    swimLE groups a b → swimLE groups b c → swimLE groups a c := by
  intro a b c hab hbc
  unfold swimLE swimCmp at *
  split_ifs at * <;> simp_all <;> omega

theorem swimLE_total (groups : List (List Char)) : ∀ (a b : RawEventData),
    swimLE groups a b || swimLE groups b a := by
  intro a b
  unfold swimLE swimCmp
  split_ifs <;> simp_all <;> omega

/-- C1: phase A output is sorted non-decreasing by date for every input
order; in linear mode ties keep the original parse order (the stable sort
equals the sort by the lexicographic (date, parse index) key); in lane
mode the output is re-stable-sorted with the lane index in the
distinct-lane list as secondary key; both outputs are permutations of the
input. -/
theorem C1_phase_a_sorted (events : List RawEventData) :
    List.Pairwise (fun a b => a.date ≤ b.date) (linearSort events) ∧
    (linearSort events).Perm events ∧
    ((events.enum.mergeSort tieLE).map Prod.snd = linearSort events) ∧
    List.Pairwise
      (fun a b => a.2.date < b.2.date ∨ (a.2.date = b.2.date ∧ a.1 ≤ b.1))
      (events.enum.mergeSort tieLE) ∧
    List.Pairwise
      (fun a b => a.date < b.date ∨ (a.date = b.date ∧
        jsArrIndexOf (uniqueGroups (linearSort events)) a.group ≤
        jsArrIndexOf (uniqueGroups (linearSort events)) b.group))
      (swimSort events) ∧
    (swimSort events).Perm events := by
  refine ⟨?_, ?_, ?_, ?_, ?_, ?_⟩
  · have h := List.sorted_mergeSort dateLE_trans dateLE_total events
    exact h.imp fun hab => by
      simpa [dateLE] using hab
  · exact List.mergeSort_perm events dateLE
  · rw [tieLE_eq_enumLE]
    exact List.mergeSort_enum
  · have h := List.sorted_mergeSort tieLE_trans tieLE_total events.enum
    refine h.imp ?_
    intro a b hab
    revert hab
    unfold tieLE
    split_ifs with hd
    · intro hab
      exact Or.inr ⟨hd, by simpa using hab⟩
    · intro hab
      have h2 : a.2.date ≤ b.2.date := by simpa using hab
      exact Or.inl (by omega)
  · have h := List.sorted_mergeSort (swimLE_trans (uniqueGroups (linearSort events)))
      (swimLE_total (uniqueGroups (linearSort events))) (linearSort events)
    refine h.imp ?_
    intro a b hab
    revert hab
    unfold swimLE swimCmp
    split_ifs with hd
    · intro hab
      have h2 : jsArrIndexOf (uniqueGroups (linearSort events)) a.group -
          jsArrIndexOf (uniqueGroups (linearSort events)) b.group ≤ 0 := by
        simpa using hab
      exact Or.inr ⟨hd, by omega⟩
    · intro hab
      have h2 : a.date - b.date ≤ 0 := by simpa using hab
      exact Or.inl (by omega)
  · exact (List.mergeSort_perm (linearSort events) _).trans
      (List.mergeSort_perm events dateLE)

theorem matchSep_head {c : Char} {l : List Char} {n : Nat}
    (h : matchSep (c :: l) = some n) : c = '\n' ∨ c = '\r' := by
  unfold matchSep at h
  split_ifs at h with h1 h2 h3
  · right
    have := congrArg (fun l => l.head?) h1
    simpa using this
  · left
    have := congrArg (fun l => l.head?) h2
    simpa using this
  · right
    have := congrArg (fun l => l.head?) h3
    simpa using this

theorem findSep_cons_nonterm {c : Char} {l : List Char}
    (hc : c ≠ '\n' ∧ c ≠ '\r') :
    findSep (c :: l) = (findSep l).map fun p => (p.1 + 1, p.2) := by
  rw [findSep]
  cases hm : matchSep (c :: l) with
  | some n =>
    rcases matchSep_head hm with h | h
    · exact absurd h hc.1
    · exact absurd h hc.2
  | none => rfl

theorem findSep_append_none {a : List Char} (ha : goodLine a) {t : List Char}
    (ht : findSep t = none) : findSep (a ++ t) = none := by
  induction a with
  | nil => simpa using ht
  | cons c a ih =>
    rw [List.cons_append,
      findSep_cons_nonterm (ha c (List.mem_cons_self c a)),
      ih fun x hx => ha x (List.mem_cons_of_mem c hx)]
    rfl

theorem findSep_append_some {a : List Char} (ha : goodLine a) {t : List Char}
    {i n : Nat} (ht : findSep t = some (i, n)) :
    findSep (a ++ t) = some (a.length + i, n) := by
  induction a with
  | nil => simpa using ht
  | cons c a ih =>
    rw [List.cons_append,
      findSep_cons_nonterm (ha c (List.mem_cons_self c a)),
      ih fun x hx => ha x (List.mem_cons_of_mem c hx)]
    simp only [Option.map_some', List.length_cons]
    congr 2
    omega

theorem findSep_goodLine {a : List Char} (ha : goodLine a) : findSep a = none := by
  have := findSep_append_none ha (t := []) rfl
  simpa using this

theorem joinNL_cons {x : List Char} {ys : List (List Char)} (h : ys ≠ []) :
    joinNL (x :: ys) = x ++ '\n' :: joinNL ys := by
  cases ys with
  | nil => exact absurd rfl h
  | cons y ys => rfl

theorem joinNL_append {xs ys : List (List Char)} (hx : xs ≠ []) (hy : ys ≠ []) :
    joinNL (xs ++ ys) = joinNL xs ++ '\n' :: joinNL ys := by
  induction xs with
  | nil => exact absurd rfl hx
  | cons x xs ih =>
    cases xs with
    | nil =>
      rw [List.cons_append, List.nil_append, joinNL_cons hy]
      rfl
    | cons x2 xs2 =>
      rw [List.cons_append,
        joinNL_cons (show (x2 :: xs2) ++ ys ≠ [] by simp),
        joinNL_cons (show (x2 :: xs2 : List (List Char)) ≠ [] by simp),
        ih (by simp)]
      simp

theorem take4_joinNL {b : List Char} {ls : List (List Char)} (hb : goodLine b) :
    ((joinNL (b :: ls)).take 4 = ['-', '-', '-', '\n']) ↔ (b = dashLine ∧ ls ≠ []) := by
  cases ls with
  | nil =>
    show (joinNL [b]).take 4 = _ ↔ _
    simp only [joinNL]
    constructor
    · intro h
      exfalso
      have hm : '\n' ∈ b.take 4 := by rw [h]; simp
      exact (hb _ (List.take_subset 4 b hm)).1 rfl
    · rintro ⟨-, h⟩
      exact absurd rfl h
  | cons g gs =>
    rw [joinNL_cons (by simp)]
    constructor
    · intro h
      refine ⟨?_, by simp⟩
      rcases b with _ | ⟨c1, _ | ⟨c2, _ | ⟨c3, _ | ⟨c4, brest⟩⟩⟩⟩
      · simp at h
      · simp at h
      · simp at h
      · simp only [List.cons_append, List.nil_append, List.take_succ_cons,
          List.take_zero] at h
        unfold dashLine
        simp only [List.cons.injEq] at h ⊢
        exact ⟨h.1, h.2.1, h.2.2.1, trivial⟩
      · exfalso
        simp only [List.cons_append, List.take_succ_cons, List.cons.injEq] at h
        exact (hb c4 (by simp)).1 h.2.2.2.1
    · rintro ⟨rfl, -⟩
      rfl

theorem matchSep_nl {b : List Char} {ls : List (List Char)} (hb : goodLine b) :
    matchSep ('\n' :: joinNL (b :: ls)) =
      if b = dashLine ∧ ls ≠ [] then some 5 else none := by
  have h1 : ¬ (('\n' :: joinNL (b :: ls)).take 7 =
      ['\r', '\n', '-', '-', '-', '\r', '\n']) := by
    intro h
    have := congrArg List.head? h
    simp at this
  have h3 : ¬ (('\n' :: joinNL (b :: ls)).take 5 = ['\r', '-', '-', '-', '\r']) := by
    intro h
    have := congrArg List.head? h
    simp at this
  by_cases h2 : b = dashLine ∧ ls ≠ []
  · have hc : ('\n' :: joinNL (b :: ls)).take 5 = ['\n', '-', '-', '-', '\n'] := by
      rw [List.take_succ_cons, (take4_joinNL hb).mpr h2]
    unfold matchSep
    rw [if_neg h1, if_pos hc, if_pos h2]
  · have hc : ¬ (('\n' :: joinNL (b :: ls)).take 5 = ['\n', '-', '-', '-', '\n']) := by
      intro h
      rw [List.take_succ_cons, List.cons.injEq] at h
      exact h2 ((take4_joinNL hb).mp h.2)
    unfold matchSep
    rw [if_neg h1, if_neg hc, if_neg h3, if_neg h2]

theorem findSep_no_dash {lines : List (List Char)} (hg : ∀ l ∈ lines, goodLine l)
    (hnd : ∀ l ∈ lines, l ≠ dashLine) : findSep (joinNL lines) = none := by
  induction lines with
  | nil => rfl
  | cons a rest ih =>
    cases rest with
    | nil => exact findSep_goodLine (hg a (by simp))
    | cons b ls =>
      rw [joinNL_cons (by simp)]
      apply findSep_append_none (hg a (by simp))
      rw [findSep, matchSep_nl (hg b (by simp)),
        if_neg (by rintro ⟨hbd, -⟩; exact hnd b (by simp) hbd),
        ih (fun l hl => hg l (List.mem_cons_of_mem a hl))
          (fun l hl => hnd l (List.mem_cons_of_mem a hl))]
      rfl

theorem findSep_pre_dash (pre : List (List Char)) (hpre : pre ≠ [])
    (hg : ∀ l ∈ pre, goodLine l) (hnd : ∀ l ∈ pre, l ≠ dashLine)
    (rest : List (List Char)) (hgr : ∀ l ∈ rest, goodLine l) :
    findSep (joinNL (pre ++ dashLine :: rest)) =
      if rest = [] then none else some (((joinNL pre).length : Nat), 5) := by
  match pre, hpre with
  | [p], _ =>
    rw [show ([p] ++ dashLine :: rest) = p :: dashLine :: rest from rfl,
      joinNL_cons (by simp)]
    cases rest with
    | nil =>
      rw [if_pos rfl]
      apply findSep_append_none (hg p (by simp))
      rw [findSep, matchSep_nl (show goodLine dashLine by unfold goodLine; decide),
        if_neg (by rintro ⟨-, h⟩; exact h rfl),
        findSep_goodLine (show goodLine (joinNL [dashLine]) by unfold goodLine; decide)]
      rfl
    | cons r rs =>
      rw [if_neg (by simp)]
      have hin : findSep ('\n' :: joinNL (dashLine :: r :: rs)) = some (0, 5) := by
        rw [findSep, matchSep_nl (show goodLine dashLine by unfold goodLine; decide),
          if_pos ⟨rfl, by simp⟩]
      have hall := findSep_append_some (hg p (by simp)) hin
      rw [hall]
      show some (p.length + 0, 5) = some (((joinNL [p]).length : Nat), 5)
      simp [joinNL]
  | p :: p2 :: pre2, _ =>
    rw [List.cons_append, joinNL_cons (by simp), List.cons_append]
    have hnext := findSep_pre_dash (p2 :: pre2) (by simp)
      (fun l hl => hg l (List.mem_cons_of_mem p hl))
      (fun l hl => hnd l (List.mem_cons_of_mem p hl)) rest hgr
    rw [List.cons_append] at hnext
    cases rest with
    | nil =>
      rw [if_pos rfl]
      rw [if_pos rfl] at hnext
      apply findSep_append_none (hg p (by simp))
      rw [findSep, matchSep_nl (hg p2 (by simp)),
        if_neg (by rintro ⟨hbd, -⟩; exact hnd p2 (by simp) hbd), hnext]
      rfl
    | cons r rs =>
      rw [if_neg (by simp)]
      rw [if_neg (by simp)] at hnext
      have hin : findSep ('\n' :: joinNL (p2 :: (pre2 ++ dashLine :: r :: rs))) =
          some ((joinNL (p2 :: pre2)).length + 1, 5) := by
        rw [findSep, matchSep_nl (hg p2 (by simp)),
          if_neg (by rintro ⟨hbd, -⟩; exact hnd p2 (by simp) hbd), hnext]
        rfl
      have hall := findSep_append_some (hg p (by simp)) hin
      rw [hall]
      have hlen : (joinNL (p :: p2 :: pre2)).length =
          p.length + ((joinNL (p2 :: pre2)).length + 1) := by
        rw [joinNL_cons (by simp)]
        simp
      rw [hlen]

theorem splitOnDash_ne_nil (lines : List (List Char)) : splitOnDash lines ≠ [] := by
  induction lines with
  | nil => simp [splitOnDash]
  | cons l rest ih =>
    rw [splitOnDash]
    split_ifs
    · simp
    · cases h : splitOnDash rest with
      | nil => simp
      | cons g gs => simp

theorem splitOnDash_no_dash {lines : List (List Char)}
    (h : ∀ l ∈ lines, l ≠ dashLine) : splitOnDash lines = [lines] := by
  induction lines with
  | nil => rfl
  | cons l rest ih =>
    rw [splitOnDash, if_neg (h l (by simp)),
      ih fun x hx => h x (List.mem_cons_of_mem l hx)]

theorem splitOnDash_pre {pre : List (List Char)} (hnd : ∀ l ∈ pre, l ≠ dashLine)
    (rest : List (List Char)) :
    splitOnDash (pre ++ dashLine :: rest) = pre :: splitOnDash rest := by
  induction pre with
  | nil =>
    rw [List.nil_append, splitOnDash, if_pos rfl]
  | cons p pre' ih =>
    rw [List.cons_append, splitOnDash, if_neg (hnd p (by simp)),
      ih fun x hx => hnd x (List.mem_cons_of_mem p hx)]

theorem splitNL_goodLine {l : List Char} (h : goodLine l) : splitNL l = [l] := by
  induction l with
  | nil => rfl
  | cons c t ih =>
    rw [splitNL, if_neg (h c (by simp)).1,
      ih fun x hx => h x (List.mem_cons_of_mem c hx)]

theorem splitNL_append_nl {a : List Char} (ha : goodLine a) (t : List Char) :
    splitNL (a ++ '\n' :: t) = a :: splitNL t := by
  induction a with
  | nil =>
    rw [List.nil_append, splitNL, if_pos rfl]
  | cons c a' ih =>
    rw [List.cons_append, splitNL, if_neg (ha c (by simp)).1,
      ih fun x hx => ha x (List.mem_cons_of_mem c hx)]

theorem splitNL_joinNL {lines : List (List Char)} (hne : lines ≠ [])
    (hg : ∀ l ∈ lines, goodLine l) : splitNL (joinNL lines) = lines := by
  induction lines with
  | nil => exact absurd rfl hne
  | cons l rest ih =>
    cases rest with
    | nil => exact splitNL_goodLine (hg l (by simp))
    | cons b ls =>
      rw [joinNL_cons (by simp), splitNL_append_nl (hg l (by simp)),
        ih (by simp) fun x hx => hg x (List.mem_cons_of_mem l hx)]

theorem matchSep_bound {l : List Char} {n : Nat} (h : matchSep l = some n) :
    n ≤ l.length ∧ 5 ≤ n := by
  unfold matchSep at h
  split_ifs at h with h1 h2 h3 <;> injection h with h <;> subst h
  · have := congrArg List.length h1
    simp at this
    omega
  · have := congrArg List.length h2
    simp at this
    omega
  · have := congrArg List.length h3
    simp at this
    omega

theorem findSep_bound {l : List Char} {i n : Nat} (h : findSep l = some (i, n)) :
    i + n ≤ l.length ∧ 5 ≤ n := by
  induction l generalizing i with
  | nil => simp [findSep] at h
  | cons c rest ih =>
    rw [findSep] at h
    cases hm : matchSep (c :: rest) with
    | some m =>
      rw [hm] at h
      simp only [Option.some.injEq, Prod.mk.injEq] at h
      obtain ⟨hi, hn⟩ := h
      have := matchSep_bound hm
      subst hi hn
      simpa using this
    | none =>
      rw [hm] at h
      rw [Option.map_eq_some'] at h
      obtain ⟨⟨i', n'⟩, hfs, heq⟩ := h
      simp only [Prod.mk.injEq] at heq
      have hih := ih (heq.2 ▸ hfs)
      simp only [List.length_cons]
      omega

theorem splitBlocksGo_fuel_eq :
    ∀ (f1 f2 : Nat) (off : Int) (l : List Char) (pos : Nat),
      l.length < f1 → l.length < f2 →
      splitBlocksGo f1 off l pos = splitBlocksGo f2 off l pos := by
  intro f1
  induction f1 with
  | zero => intro f2 off l pos h1 h2; omega
  | succ f1 ih =>
    intro f2 off l pos h1 h2
    cases f2 with
    | zero => omega
    | succ f2 =>
      rw [splitBlocksGo, splitBlocksGo]
      cases hf : findSep l with
      | none => rfl
      | some p =>
        obtain ⟨i, n⟩ := p
        have hb := findSep_bound hf
        have hd : (l.drop (i + n)).length = l.length - (i + n) :=
          List.length_drop (i + n) l
        dsimp only
        congr 1
        exact ih f2 off (l.drop (i + n)) (pos + i + n) (by omega) (by omega)

theorem splitBlocksGo_map_text :
    ∀ (f : Nat) (off1 off2 : Int) (l : List Char) (pos1 pos2 : Nat),
      (splitBlocksGo f off1 l pos1).map (fun b => b.text) =
      (splitBlocksGo f off2 l pos2).map (fun b => b.text) := by
  intro f
  induction f with
  | zero => intro off1 off2 l pos1 pos2; rfl
  | succ f ih =>
    intro off1 off2 l pos1 pos2
    rw [splitBlocksGo, splitBlocksGo]
    cases hf : findSep l with
    | none => split_ifs <;> rfl
    | some p =>
      obtain ⟨i, n⟩ := p
      rw [List.map_append, List.map_append,
        ih off1 off2 (l.drop (i + n)) (pos1 + i + n) (pos2 + i + n)]
      congr 1
      split_ifs <;> rfl

theorem splitBlocksGo_text_eq_segments :
    ∀ (f : Nat) (off : Int) (l : List Char) (pos : Nat),
      (splitBlocksGo f off l pos).map (fun b => b.text) =
      (sepSegmentsGo f l).filter fun s => decide (jsTrim s ≠ []) := by
  intro f
  induction f with
  | zero => intro off l pos; rfl
  | succ f ih =>
    intro off l pos
    rw [splitBlocksGo, sepSegmentsGo]
    cases hf : findSep l with
    | none =>
      by_cases ht : jsTrim l = []
      · rw [if_pos ht]
        simp [List.filter, ht]
      · rw [if_neg ht]
        simp [List.filter, ht]
    | some p =>
      obtain ⟨i, n⟩ := p
      rw [List.map_append, ih off (l.drop (i + n)) (pos + i + n)]
      by_cases ht : jsTrim (l.take i) = []
      · rw [if_pos ht]
        simp [List.filter, ht]
      · rw [if_neg ht]
        simp [List.filter, ht]

theorem dropWhile_head_false {p : List Char → Bool} {l : List (List Char)}
    {b : List Char} {t : List (List Char)} (h : l.dropWhile p = b :: t) :
    p b = false := by
  induction l with
  | nil => simp at h
  | cons a rest ih =>
    rw [List.dropWhile_cons] at h
    split_ifs at h with hp
    · exact ih h
    · rw [List.cons.injEq] at h
      rw [← h.1]
      simpa using hp

/-- C4 (amended): the tokenizer splits the body into blocks at separators
and agrees with the spec's line-based split ("a line consisting solely of
`---`"), with whitespace-only blocks discarded and the trailing segment
kept, provided the `---` lines are strictly internal — not the body's
first line, not its last line, and never immediately after another `---`
line — since the code's separator patterns require a line terminator on
both sides and are consumed without overlap.  Stated for LF documents;
the counterexample shows the original claim fails at a `---` first line. -/
theorem C4_separator_split (lines : List (List Char)) (off : Int)
    (hg : ∀ l ∈ lines, goodLine l)
    (h1 : lines.head? ≠ some dashLine)
    (h2 : lines.getLast? ≠ some dashLine)
    (h3 : List.Chain' (fun a b => ¬(a = dashLine ∧ b = dashLine)) lines) :
    (splitBlocks (joinNL lines) off).map (fun b => b.text) =
      specSplitBlocks (joinNL lines) := by
  cases hsuf : lines.dropWhile (fun l => !(l == dashLine)) with
  | nil =>
    have hall : ∀ x ∈ lines, x ≠ dashLine := by
      intro x hx
      have := List.dropWhile_eq_nil_iff.mp hsuf x hx
      simpa using this
    cases lines with
    | nil => rfl
    | cons a rest0 =>
      unfold splitBlocks
      rw [splitBlocksGo]
      rw [findSep_no_dash hg hall]
      unfold specSplitBlocks
      rw [splitNL_joinNL (by simp) hg, splitOnDash_no_dash hall]
      by_cases ht : jsTrim (joinNL (a :: rest0)) = []
      · rw [if_pos ht]
        simp [List.filter, ht]
      · rw [if_neg ht]
        simp [List.filter, ht]
  | cons d rest =>
    have hdd : d = dashLine := by
      have := dropWhile_head_false hsuf
      simpa using this
    subst hdd
    have hsplit : lines = lines.takeWhile (fun l => !(l == dashLine)) ++ dashLine :: rest := by
      conv_lhs => rw [← List.takeWhile_append_dropWhile (fun l => !(l == dashLine)) lines]
      rw [hsuf]
    generalize hpredef : lines.takeWhile (fun l => !(l == dashLine)) = pre at hsplit
    have hpre_nd : ∀ x ∈ pre, x ≠ dashLine := by
      intro x hx
      rw [← hpredef] at hx
      have := List.mem_takeWhile_imp hx
      simpa using this
    have hpre_ne : pre ≠ [] := by
      intro hp
      rw [hp, List.nil_append] at hsplit
      rw [hsplit] at h1
      simp at h1
    have hg' : ∀ l ∈ rest, goodLine l := by
      intro x hx
      exact hg x (by rw [hsplit]; simp [hx])
    have hgpre : ∀ l ∈ pre, goodLine l := by
      intro x hx
      exact hg x (by rw [hsplit]; simp [hx])
    have hrest_ne : rest ≠ [] := by
      intro hr
      rw [hr] at hsplit
      rw [hsplit, List.getLast?_concat] at h2
      exact h2 rfl
    have hchain := h3
    rw [hsplit, List.chain'_append] at hchain
    obtain ⟨hcpre, hcsuf, hcx⟩ := hchain
    have hcrest : List.Chain' (fun a b => ¬(a = dashLine ∧ b = dashLine)) rest :=
      (List.chain'_cons'.mp hcsuf).2
    have hrest_head : rest.head? ≠ some dashLine := by
      intro hh
      cases hr : rest with
      | nil => rw [hr] at hh; simp at hh
      | cons r rs =>
        rw [hr] at hh
        simp only [List.head?_cons, Option.some.injEq] at hh
        have hrel := (List.chain'_cons'.mp hcsuf).1
        rw [hr] at hrel
        exact hrel r (by simp) ⟨rfl, hh⟩
    have hrest_last : rest.getLast? ≠ some dashLine := by
      rw [hsplit] at h2
      rw [List.getLast?_append_of_ne_nil pre (by simp)] at h2
      cases hr : rest with
      | nil => exact absurd hr hrest_ne
      | cons r rs =>
        rw [hr] at h2
        rw [List.getLast?_cons_cons] at h2
        exact h2
    have hjoin1 : joinNL lines = joinNL pre ++ '\n' :: joinNL (dashLine :: rest) := by
      rw [hsplit]
      exact joinNL_append hpre_ne (by simp)
    have hjoin2 : joinNL (dashLine :: rest) = '-' :: '-' :: '-' :: '\n' :: joinNL rest := by
      rw [joinNL_cons hrest_ne]
      rfl
    have hjoin : joinNL lines = (joinNL pre ++ ['\n', '-', '-', '-', '\n']) ++ joinNL rest := by
      rw [hjoin1, hjoin2]
      simp
    have hfind : findSep (joinNL lines) = some ((joinNL pre).length, 5) := by
      rw [hsplit, findSep_pre_dash pre hpre_ne hgpre hpre_nd rest hg', if_neg hrest_ne]
    have hlenlines : (joinNL lines).length =
        (joinNL pre).length + 5 + (joinNL rest).length := by
      rw [hjoin]
      simp
      omega
    have htake : (joinNL lines).take (joinNL pre).length = joinNL pre := by
      rw [hjoin1]
      exact List.take_left _ _
    have hdrop : (joinNL lines).drop ((joinNL pre).length + 5) = joinNL rest := by
      rw [hjoin]
      exact List.drop_left' (by simp)
    unfold splitBlocks
    rw [splitBlocksGo]
    rw [hfind]
    dsimp only
    rw [htake, hdrop, List.map_append]
    have hrec : (splitBlocksGo ((joinNL lines).length) off (joinNL rest)
        (0 + (joinNL pre).length + 5)).map (fun b => b.text) =
        specSplitBlocks (joinNL rest) := by
      rw [splitBlocksGo_fuel_eq ((joinNL lines).length) ((joinNL rest).length + 1) off
        (joinNL rest) (0 + (joinNL pre).length + 5) (by omega) (by omega)]
      rw [splitBlocksGo_map_text ((joinNL rest).length + 1) off off (joinNL rest)
        (0 + (joinNL pre).length + 5) 0]
      exact C4_separator_split rest off hg' hrest_head hrest_last hcrest
    rw [hrec]
    unfold specSplitBlocks
    rw [splitNL_joinNL (by rw [hsplit]; simp) hg, hsplit, splitOnDash_pre hpre_nd rest,
      List.map_cons, List.filter_cons]
    have hspec_rest : ((splitOnDash rest).map joinNL).filter
        (fun t => decide (jsTrim t ≠ [])) = specSplitBlocks (joinNL rest) := by
      unfold specSplitBlocks
      rw [splitNL_joinNL hrest_ne hg']
    rw [hspec_rest]
    by_cases ht : jsTrim (joinNL pre) = []
    · rw [if_pos ht, if_neg (by simp [ht])]
      rfl
    · rw [if_neg ht, if_pos (by simp [ht])]
      rfl
termination_by lines.length
decreasing_by
  have hlen := congrArg List.length hsplit
  simp at hlen
  omega

theorem splitBlocksGo_anchor :
    ∀ (f : Nat) (off : Int) (l : List Char) (pos : Nat),
      ∀ b ∈ splitBlocksGo f off l pos,
        jsTrim b.text ≠ [] ∧
        ∃ j : Nat, pos ≤ j ∧ b.start = off + j ∧
          b.stop = b.start + b.text.length ∧
          b.text = (l.drop (j - pos)).take b.text.length ∧
          j - pos + b.text.length ≤ l.length := by
  intro f
  induction f with
  | zero => intro off l pos b hb; simp [splitBlocksGo] at hb
  | succ f ih =>
    intro off l pos b hb
    rw [splitBlocksGo] at hb
    cases hf : findSep l with
    | none =>
      rw [hf] at hb
      split_ifs at hb with ht
      · simp at hb
      · simp only [List.mem_singleton] at hb
        subst hb
        refine ⟨ht, pos, le_refl pos, rfl, by simp, ?_, by simp⟩
        simp
    | some p =>
      obtain ⟨i, n⟩ := p
      rw [hf] at hb
      have hbd := findSep_bound hf
      rw [List.mem_append] at hb
      rcases hb with hb | hb
      · split_ifs at hb with ht
        · simp at hb
        · simp only [List.mem_singleton] at hb
          subst hb
          refine ⟨ht, pos, le_refl pos, rfl, ?_, ?_, ?_⟩
          · simp only
            have hlen : (l.take i).length = i := by
              rw [List.length_take]
              omega
            rw [hlen]
            push_cast
            ring
          · simp only
            have hlen : (l.take i).length = i := by
              rw [List.length_take]
              omega
            rw [hlen, Nat.sub_self, List.drop_zero]
          · simp only
            have hlen : (l.take i).length = i := by
              rw [List.length_take]
              omega
            rw [hlen]
            omega
      · obtain ⟨hne, j', hj1, hj2, hj3, hj4, hj5⟩ :=
          ih off (l.drop (i + n)) (pos + i + n) b hb
        obtain ⟨hbd1, hbd2⟩ := hbd
        rw [List.length_drop] at hj5
        have hple : pos ≤ j' := by omega
        have hbound : j' - pos + b.text.length ≤ l.length := by
          clear hj4 hj3 hj2 hne hf hb ih
          omega
        have htext : b.text = (l.drop (j' - pos)).take b.text.length := by
          have hidx : i + n + (j' - (pos + i + n)) = j' - pos := by omega
          conv_lhs => rw [hj4]
          rw [List.drop_drop, hidx]
        exact ⟨hne, j', hple, hj2, hj3, htext, hbound⟩

theorem splitBlocks_anchor (body : List Char) (off : Int) :
    ∀ b ∈ splitBlocks body off,
      jsTrim b.text ≠ [] ∧
      ∃ j : Nat, b.start = off + j ∧ b.stop = b.start + b.text.length ∧
        b.text = (body.drop j).take b.text.length ∧
        j + b.text.length ≤ body.length := by
  intro b hb
  obtain ⟨hne, j, hj1, hj2, hj3, hj4, hj5⟩ :=
    splitBlocksGo_anchor (body.length + 1) off body 0 b hb
  exact ⟨hne, j, hj2, hj3, by simpa using hj4, by simpa using hj5⟩

theorem splitBlocksGo_ordered :
    ∀ (f : Nat) (off : Int) (l : List Char) (pos : Nat),
      (∀ b ∈ splitBlocksGo f off l pos,
        off + pos ≤ b.start ∧ b.stop ≤ off + (pos + l.length)) ∧
      (splitBlocksGo f off l pos).Pairwise (fun b1 b2 => b1.stop ≤ b2.start) := by
  intro f
  induction f with
  | zero => intro off l pos; simp [splitBlocksGo]
  | succ f ih =>
    intro off l pos
    rw [splitBlocksGo]
    cases hf : findSep l with
    | none =>
      split_ifs with ht
      · simp
      · constructor
        · intro b hb
          simp only [List.mem_singleton] at hb
          subst hb
          constructor
          · simp
          · simp only
            push_cast
            omega
        · simp
    | some p =>
      obtain ⟨i, n⟩ := p
      have hbd := findSep_bound hf
      have hrec := ih off (l.drop (i + n)) (pos + i + n)
      have hlen : (l.drop (i + n)).length = l.length - (i + n) := by simp
      constructor
      · intro b hb
        rw [List.mem_append] at hb
        rcases hb with hb | hb
        · split_ifs at hb with ht
          · simp at hb
          · simp only [List.mem_singleton] at hb
            subst hb
            constructor
            · simp
            · simp only
              push_cast
              omega
        · have := hrec.1 b hb
          constructor
          · have h1 := this.1
            push_cast at h1 ⊢
            omega
          · have h2 := this.2
            rw [hlen] at h2
            push_cast at h2 ⊢
            omega
      · rw [List.pairwise_append]
        refine ⟨?_, hrec.2, ?_⟩
        · split_ifs with ht
          · simp
          · simp
        · intro b1 hb1 b2 hb2
          split_ifs at hb1 with ht
          · simp at hb1
          · simp only [List.mem_singleton] at hb1
            subst hb1
            have h1 := (hrec.1 b2 hb2).1
            simp only
            push_cast at h1 ⊢
            omega

theorem jsIndexOf_ge (s pat : List Char) : -1 ≤ jsIndexOf s pat := by
  induction s with
  | nil =>
    unfold jsIndexOf
    split_ifs <;> omega
  | cons c rest ih =>
    rw [jsIndexOf]
    split_ifs with h h2
    · omega
    · omega
    · omega

theorem jsIndexOf_spec (s pat : List Char) :
    ∀ (o : Int), jsIndexOf s pat = o → 0 ≤ o →
      pat = (s.drop o.toNat).take pat.length ∧ o.toNat + pat.length ≤ s.length := by
  induction s with
  | nil =>
    intro o ho hge
    unfold jsIndexOf at ho
    split_ifs at ho with hp
    · subst hp
      simp [← ho]
    · omega
  | cons c rest ih =>
    intro o ho hge
    have hge2 := jsIndexOf_ge rest pat
    rw [jsIndexOf] at ho
    split_ifs at ho with hp hm
    · have hpre : pat <+: (c :: rest) := List.isPrefixOf_iff_prefix.mp hp
      subst ho
      constructor
      · rw [Int.toNat_zero, List.drop_zero]
        exact (List.prefix_iff_eq_take.mp hpre)
      · have := hpre.length_le
        simpa using this
    · exfalso
      omega
    · obtain ⟨ha, hb⟩ := ih (jsIndexOf rest pat) rfl (by omega)
      constructor
      · rw [show o.toNat = (jsIndexOf rest pat).toNat + 1 from by omega,
          List.drop_succ_cons]
        exact ha
      · rw [show o.toNat = (jsIndexOf rest pat).toNat + 1 from by omega]
        simp only [List.length_cons]
        omega

theorem drop_take_comm : ∀ (n m : Nat) (l : List Char),
    (l.take m).drop n = (l.drop n).take (m - n) := by
  intro n
  induction n with
  | zero => simp
  | succ n ih =>
    intro m l
    cases l with
    | nil => simp
    | cons a t =>
      cases m with
      | zero => simp
      | succ m =>
        rw [List.take_succ_cons, List.drop_succ_cons, List.drop_succ_cons, ih]
        simp [Nat.succ_sub_succ]

theorem extractEvent_offsets (b : EventBlock) :
    (extractEvent b).startPos = b.start ∧ (extractEvent b).endPos = b.stop := by
  unfold extractEvent finalizeEvent
  split
  · split
    · exact ⟨rfl, rfl⟩
    · exact ⟨rfl, rfl⟩
  · exact ⟨rfl, rfl⟩

theorem jsTrim_ne_nil_length {x : List Char} (h : jsTrim x ≠ []) : 0 < x.length := by
  cases x with
  | nil => exact absurd rfl h
  | cons c t => simp

/-- Core anchoring: when `indexOf` found the body in the raw document, every
block's `[start, stop)` interval extracts exactly the block's text from the
raw document. -/
theorem splitBlocks_extract_original (full : List Char)
    (h : 0 ≤ jsIndexOf full (extractTitleFromMarkdown full).body) :
    ∀ b ∈ splitBlocks (extractTitleFromMarkdown full).body
        (jsIndexOf full (extractTitleFromMarkdown full).body),
      0 ≤ b.start ∧ b.start < b.stop ∧ b.stop ≤ (full.length : Int) ∧
      jsExtract full b.start b.stop = b.text := by
  intro b hb
  obtain ⟨hne, j, hj1, hj2, hj3, hj4⟩ :=
    splitBlocks_anchor (extractTitleFromMarkdown full).body
      (jsIndexOf full (extractTitleFromMarkdown full).body) b hb
  obtain ⟨hpat, hlen⟩ := jsIndexOf_spec full (extractTitleFromMarkdown full).body
    (jsIndexOf full (extractTitleFromMarkdown full).body) rfl h
  have hpos : 0 < b.text.length := by
    cases hx : b.text with
    | nil => rw [hx] at hne; exact absurd (by rfl) hne
    | cons c t => simp [hx]
  have hcast : ((jsIndexOf full (extractTitleFromMarkdown full).body).toNat : Int) =
      jsIndexOf full (extractTitleFromMarkdown full).body := Int.toNat_of_nonneg h
  refine ⟨by omega, by omega, by omega, ?_⟩
  unfold jsExtract
  have h1 : (b.start).toNat =
      (jsIndexOf full (extractTitleFromMarkdown full).body).toNat + j := by omega
  have h2 : (b.stop - b.start).toNat = b.text.length := by omega
  rw [h1, h2]
  conv_rhs => rw [hj3]
  conv_rhs => rw [hpat]
  rw [drop_take_comm, List.drop_drop, List.take_take]
  congr 1
  omega

/-- C7 (amended): whenever the extracted body occurs verbatim in the raw
document (`indexOf ≥ 0` — in particular for LF documents, with or without
a stripped title line), each block's `[sourceStart, sourceEnd)` addresses
the original, untouched document exactly; unconditionally, the events'
offsets are the blocks' offsets, the intervals never overlap, and
`sourceStart < sourceEnd` always holds.  (The CRLF counterexample shows
the offsets do not address the original document in general.) -/
theorem C7_offsets_into_original (full : List Char) :
    (0 ≤ jsIndexOf full (extractTitleFromMarkdown full).body →
      ∀ b ∈ splitBlocks (extractTitleFromMarkdown full).body
          (jsIndexOf full (extractTitleFromMarkdown full).body),
        0 ≤ b.start ∧ b.start < b.stop ∧ b.stop ≤ (full.length : Int) ∧
        jsExtract full b.start b.stop = b.text) ∧
    ((pipelineEvents full).map (fun e => (e.startPos, e.endPos)) =
      (splitBlocks (extractTitleFromMarkdown full).body
        (jsIndexOf full (extractTitleFromMarkdown full).body)).map
        (fun b => (b.start, b.stop))) ∧
    List.Pairwise (fun e1 e2 => e1.endPos ≤ e2.startPos) (pipelineEvents full) ∧
    (∀ e ∈ pipelineEvents full, e.startPos < e.endPos) := by
  refine ⟨splitBlocks_extract_original full, ?_, ?_, ?_⟩
  · show ((splitBlocks _ _).map extractEvent).map _ = _
    rw [List.map_map]
    refine List.map_congr_left fun b hb => ?_
    have := extractEvent_offsets b
    simp [this.1, this.2]
  · show List.Pairwise _ ((splitBlocks _ _).map extractEvent)
    rw [List.pairwise_map]
    refine ((splitBlocksGo_ordered _ _ _ _).2).imp ?_
    intro b1 b2 hle
    rw [(extractEvent_offsets b1).2, (extractEvent_offsets b2).1]
    exact hle
  · intro e he
    rw [show pipelineEvents full = (splitBlocks _ _).map extractEvent from rfl] at he
    obtain ⟨b, hb, rfl⟩ := List.mem_map.mp he
    obtain ⟨hne, j, hj1, hj2, hj3, hj4⟩ := splitBlocks_anchor _ _ b hb
    have hpos : 0 < b.text.length := by
      cases hx : b.text with
      | nil => rw [hx] at hne; exact absurd (by rfl) hne
      | cons c t => simp [hx]
    rw [(extractEvent_offsets b).1, (extractEvent_offsets b).2]
    omega

/-- C7 counterexample: for a CRLF document the extracted body is
LF-normalized and no longer occurs in the raw text, so the single event's
`sourceStart` is `-1`: not a position in the original document. -/
theorem C7_counterexample :
    (pipelineEvents "date: 2025-01-01\r\nA".toList).map
      (fun e => (e.startPos, e.endPos)) = [(-1, 17)] ∧
    ∃ e ∈ pipelineEvents "date: 2025-01-01\r\nA".toList, e.startPos < 0 := by
  constructor
  · decide
  · decide

/-- C7 witness: an LF document with a stripped title line; the body is
found at offset 4 and the block interval `[4, 22)` extracts the block text
from the original document. -/
theorem C7_witness :
    0 ≤ jsIndexOf ("# T\ndate: 2025-01-01\nA".toList)
      (extractTitleFromMarkdown "# T\ndate: 2025-01-01\nA".toList).body ∧
    (∀ b ∈ splitBlocks
        (extractTitleFromMarkdown "# T\ndate: 2025-01-01\nA".toList).body
        (jsIndexOf ("# T\ndate: 2025-01-01\nA".toList)
          (extractTitleFromMarkdown "# T\ndate: 2025-01-01\nA".toList).body),
      0 ≤ b.start ∧ b.start < b.stop ∧
      b.stop ≤ (("# T\ndate: 2025-01-01\nA".toList).length : Int) ∧
      jsExtract "# T\ndate: 2025-01-01\nA".toList b.start b.stop = b.text) :=
  ⟨by decide, (C7_offsets_into_original "# T\ndate: 2025-01-01\nA".toList).1 (by decide)⟩

/-- C6 (amended): concatenating the raw-document substrings at each
event's `[sourceStart, sourceEnd)`, in event order, reconstructs the body
minus the tokenizer's separator occurrences and minus whitespace-only
blocks — metadata lines are included in the substrings (only the event's
`content` field has them removed).  Stated for documents whose extracted
body occurs verbatim in the raw text (`indexOf ≥ 0`). -/
theorem C6_reconstruction (full : List Char)
    (h : 0 ≤ jsIndexOf full (extractTitleFromMarkdown full).body) :
    ((pipelineEvents full).map
      (fun e => jsExtract full e.startPos e.endPos)).flatten =
      retainedText (extractTitleFromMarkdown full).body := by
  have hmap : (pipelineEvents full).map (fun e => jsExtract full e.startPos e.endPos) =
      (splitBlocks (extractTitleFromMarkdown full).body
        (jsIndexOf full (extractTitleFromMarkdown full).body)).map (fun b => b.text) := by
    show ((splitBlocks _ _).map extractEvent).map _ = _
    rw [List.map_map]
    refine List.map_congr_left fun b hb => ?_
    show jsExtract full (extractEvent b).startPos (extractEvent b).endPos = b.text
    rw [(extractEvent_offsets b).1, (extractEvent_offsets b).2]
    exact (splitBlocks_extract_original full h b hb).2.2.2
  rw [hmap]
  unfold retainedText sepSegments splitBlocks
  rw [splitBlocksGo_text_eq_segments]

/-- C6 counterexample: for the document `"date: x\nA"` the single event's
interval covers the whole block including its `date:` metadata line, so
the concatenation is not the body minus separators and metadata lines. -/
theorem C6_counterexample :
    ((pipelineEvents "date: x\nA".toList).map
      (fun e => jsExtract "date: x\nA".toList e.startPos e.endPos)).flatten =
      "date: x\nA".toList ∧
    specBodyMinusSepsAndMeta "date: x\nA".toList = ['A'] ∧
    ((pipelineEvents "date: x\nA".toList).map
      (fun e => jsExtract "date: x\nA".toList e.startPos e.endPos)).flatten ≠
      specBodyMinusSepsAndMeta "date: x\nA".toList := by
  refine ⟨by decide, by decide, by decide⟩

/-- C6 witness: a document with a separator; the concatenated substrings
equal the body minus the separator, metadata lines included. -/
theorem C6_witness :
    0 ≤ jsIndexOf ("date: 2025-01-01\nKickoff\n---\nNo date here".toList)
      (extractTitleFromMarkdown
        "date: 2025-01-01\nKickoff\n---\nNo date here".toList).body ∧
    ((pipelineEvents "date: 2025-01-01\nKickoff\n---\nNo date here".toList).map
      (fun e => jsExtract "date: 2025-01-01\nKickoff\n---\nNo date here".toList
        e.startPos e.endPos)).flatten =
      retainedText (extractTitleFromMarkdown
        "date: 2025-01-01\nKickoff\n---\nNo date here".toList).body :=
  ⟨by decide,
   C6_reconstruction "date: 2025-01-01\nKickoff\n---\nNo date here".toList (by decide)⟩

/-- C4 counterexample: on the body `"---\na"` the first line consists
solely of `---`, yet the tokenizer does not split there: it produces the
single block `"---\na"`, while the spec's split yields `["a"]`. -/
theorem C4_counterexample :
    (splitBlocks "---\na".toList 0).map (fun b => b.text) = ["---\na".toList] ∧
    specSplitBlocks "---\na".toList = [['a']] ∧
    (splitBlocks "---\na".toList 0).map (fun b => b.text) ≠
      specSplitBlocks "---\na".toList := by
  refine ⟨by decide, by decide, by decide⟩

/-- C4 witness: on `"a\n---\nb"` (internal separator line) the tokenizer
and the spec's split agree. -/
theorem C4_witness :
    (splitBlocks (joinNL [['a'], dashLine, ['b']]) 0).map (fun b => b.text) =
      specSplitBlocks (joinNL [['a'], dashLine, ['b']]) :=
  C4_separator_split [['a'], dashLine, ['b']] 0
    (by intro l hl; fin_cases hl <;> (unfold goodLine; decide))
    (by decide) (by decide)
    (List.chain'_cons.mpr ⟨by unfold dashLine; decide,
      List.chain'_cons.mpr ⟨by unfold dashLine; decide, List.chain'_singleton _⟩⟩)
